import Mathlib

/-!
Verification of `src/scripts/utils.py` (windowed raster analysis).

This file gives a shallow embedding of the two algorithmic functions of the
repository — `glcm_texture` (the Texture Engine) and `majority_filter`
together with its per-pixel helper `block_fn` (the Majority Filter) — and
proves or refutes the specification claims about them.

Modelling conventions:
* A raster sample (a numpy float64) is modelled by `F`: either a finite
  rational (`F.num q`), one of the two infinities, or `F.nan`.  Rational
  arithmetic replaces exact binary floating point; the IEEE special-value
  rules that the code can actually hit (division by zero, NaN propagation
  through rounding and maximum) are modelled explicitly.
* numpy 2-D arrays are lists of row lists (row 0 = top row).
* In-place mutation of the caller's array (the `sub_image /= ...` statement
  operates on a view of the input) is modelled by threading the image state:
  the embedded `glcm_texture` returns the pair (result, final image).
* Python exceptions (`raise ValueError`) are modelled by `Except`.
-/

attribute [local semireducible] Rat.mul Rat.add Rat.sub Rat.inv

deriving instance DecidableEq for Except

/-- A numpy float64 value: negative infinity, a finite rational, positive
infinity, or NaN. -/
inductive F where
  | ninf : F
  | num  : ℚ → F
  | inf  : F
  | nan  : F
deriving DecidableEq, Repr

namespace F

/-- numpy's sort/compare order on float64 values: `-inf` below all finite
numbers, `inf` above them, and NaN sorted to the end (as `np.sort` and
`np.unique` place it); since numpy 1.21 `np.unique` treats NaNs as equal
to each other, which matches plain equality on `F`. -/
def fle : F → F → Prop
  | ninf, _ => True
  | num _, ninf => False
  | num a, num b => a ≤ b
  | num _, inf => True
  | num _, nan => True
  | inf, ninf => False
  | inf, num _ => False
  | inf, inf => True
  | inf, nan => True
  | nan, nan => True
  | nan, _ => False

instance instDecidableFle : DecidableRel fle := fun a b => by
  cases a <;> cases b <;> simp only [fle] <;> infer_instance

instance : LinearOrder F where
  le := fle
  le_refl a := by cases a <;> simp [fle]
  le_trans a b c hab hbc := by
    cases a <;> cases b <;> cases c <;> simp_all [fle] <;> exact le_trans hab hbc
  le_antisymm a b hab hba := by
    cases a <;> cases b <;> simp_all [fle] <;> exact le_antisymm hab hba
  le_total a b := by
    cases a <;> cases b <;> simp [fle] <;> exact le_total _ _
  decidableLE := instDecidableFle
  decidableEq := inferInstance

theorem le_def (a b : F) : (a ≤ b) = fle a b := rfl

/-- IEEE-754 division as numpy performs it elementwise (`/` with a runtime
warning but no exception on division by zero): `0/0 = NaN`, `x/0 = ±inf`
for finite nonzero `x`, NaN propagates.  Signed zero is not modelled; the
`x/±inf` and `±inf/x` cases follow the unsigned-zero convention. -/
def fdiv : F → F → F
  | nan, _ => nan
  | ninf, nan => nan
  | num _, nan => nan
  | inf, nan => nan
  | num a, num b =>
      if b = 0 then (if a = 0 then nan else if 0 < a then inf else ninf)
      else num (a / b)
  | num _, inf => num 0
  | num _, ninf => num 0
  | inf, num b => if 0 ≤ b then inf else ninf
  | ninf, num b => if 0 ≤ b then ninf else inf
  | inf, inf => nan
  | inf, ninf => nan
  | ninf, inf => nan
  | ninf, ninf => nan

/-- numpy's `max` reduction on float64: NaN propagates, otherwise the sort
order's maximum.  Since `F.nan` is the top of the `LinearOrder F` order,
both behaviours coincide with `max`. -/
def fmax (a b : F) : F := max a b

end F

/-- Round half to even on an exact rational, the rounding rule of
`np.round_` (banker's rounding). -/
def roundHalfEven (q : ℚ) : ℤ :=
  let f := ⌊q⌋
  let r := q - f
  if r < 1/2 then f
  else if 1/2 < r then f + 1
  else if Even f then f else f + 1

/-- Truncation toward zero on an exact rational, the conversion C (and
hence numpy's float→int cast) applies to finite values. -/
def truncQ (q : ℚ) : ℤ := if 0 ≤ q then ⌊q⌋ else ⌈q⌉

/-- The int64 value numpy's `astype(int)` produces on x86 for NaN and the
infinities (an invalid cast; the hardware result is INT64_MIN). -/
def int64Min : ℤ := -(2 ^ 63)

/-- numpy `astype(int)` of a float64 value: truncation for finite values,
INT64_MIN for NaN/±inf (the x86 invalid-cast result). -/
def toInt64 : F → ℤ
  | F.num q => truncQ q
  | _ => int64Min

/-- `np.round_(·, 0)` elementwise on a float64 value: round half to even on
finite values; NaN and the infinities are returned unchanged. -/
def fround : F → F
  | F.num q => F.num (roundHalfEven q)
  | v => v

/-- `np.unique(l, return_counts=True)`: the distinct values of `l` in
ascending order, each paired with its number of occurrences. -/
def npUnique {α : Type} [LinearOrder α] [DecidableEq α] (l : List α) : List (α × ℕ) :=
  (l.dedup.insertionSort (· ≤ ·)).map fun v => (v, l.count v)

/-- `unique_elements[np.argmax(counts_elements)]`: the first entry (in the
ascending order produced by `np.unique`) whose count attains the maximum
count.  `np.argmax` returns the first index of the maximum. -/
def selectMaj {α : Type} [Inhabited α] (uc : List (α × ℕ)) : α :=
  let m := (uc.map Prod.snd).foldr max 0
  match uc.find? (fun p => p.2 == m) with
  | some p => p.1
  | none => default

instance : Inhabited F := ⟨F.nan⟩

/-- `block_fn(x, center_val)` from `src/scripts/utils.py`: computes the
distinct values and counts of the flattened block, then returns NaN if the
center is NaN, `1.0` if the center equals `1`, and otherwise the distinct
value with the (first) maximal count. -/
def block_fn (x : List F) (center_val : F) : F :=
  let uc := npUnique x
  if center_val = F.nan then F.nan
  else if center_val = F.num 1 then F.num 1
  else selectMaj uc

/-- The number of columns of a 2-D array modelled as a list of rows
(`x.shape[1]`; rows of a numpy array all have this length). -/
def width (x : List (List F)) : ℕ := (x.headD []).length

/-- Row `i`, column `j` of a 2-D array (in-bounds in every use). -/
def getF (x : List (List F)) (i j : ℕ) : F := (x.getD i []).getD j F.nan

/-- `x[i0 : i0+h, j0 : j0+w]` — numpy basic slicing, which clamps at the
array bounds. -/
def slice2 (x : List (List F)) (i0 h j0 w : ℕ) : List (List F) :=
  ((x.drop i0).take h).map fun row => (row.drop j0).take w

/-- The clamped neighborhood block of `majority_filter` at pixel `(i,j)`:
rows `max 0 (i-yy) .. min (rows-1) (i+yy)` and the analogous columns
(note `i - yy` is truncated ℕ subtraction, i.e. `max 0 (i-yy)`). -/
def blockOf (x : List (List F)) (i j yy xx : ℕ) : List (List F) :=
  let miny := i - yy
  let maxy := min (x.length - 1) (i + yy)
  let minx := j - xx
  let maxx := min (width x - 1) (j + xx)
  slice2 x miny (maxy + 1 - miny) minx (maxx + 1 - minx)

/-- `majority_filter(x, block_size)` from `src/scripts/utils.py`.  The
`assert` of odd block sizes is modelled by returning `none` when it fails.
For every pixel the clamped block is extracted and `block_fn` applied with
the pixel's own value as center. -/
def majority_filter (x : List (List F)) (bs : ℕ × ℕ) : Option (List (List F)) :=
  if bs.1 % 2 = 0 ∨ bs.2 % 2 = 0 then none
  else
    let yy := (bs.1 - 1) / 2
    let xx := (bs.2 - 1) / 2
    some ((List.range x.length).map fun i =>
      (List.range (width x)).map fun j =>
        block_fn ((blockOf x i j yy xx).flatten) (getF x i j))

/-!
## The Texture Engine (`glcm_texture`)

The errors the Python code can raise while processing a tile: the
`ValueError` of `skimage.feature.greycomatrix` when the quantized maximum
is not below `levels`, and the `ValueError` raised by `glcm_texture`'s own
property dispatch.  There is no other raise statement in `glcm_texture`;
in particular no error of any kind exists for a tile whose maximum is 0.
-/
inductive TexErr where
  | levelsExceeded : TexErr
  | unsupportedProperty : TexErr
deriving DecidableEq, Repr

/-- One cell of the texture output grid, kept symbolic so that the exact
rational pipeline stays separate from the transcendental entropy values:
`rat q` is the float produced by the `dissimilarity`/`homogeneity`
branches; `ent hs` is the `entropy` branch's `np.mean(ls_ent)`, recorded
by the four histogram count vectors that `shannon_entropy` reduces
(its value is `CellV.toReal`). -/
inductive CellV where
  | rat : ℚ → CellV
  | ent : List (List ℕ) → CellV
deriving DecidableEq, Repr

/-- `scipy.stats.entropy(counts, base=np.e)` as used by
`skimage.measure.shannon_entropy`: normalize the counts to a probability
vector and return the natural-log Shannon entropy.  (With `Real.log 0 = 0`
in Mathlib, a zero count contributes zero, matching scipy's convention.) -/
noncomputable def scipyEntropy (counts : List ℕ) : ℝ :=
  let S : ℝ := (counts.sum : ℕ);
  -((counts.map (fun c => ((c : ℝ) / S) * Real.log ((c : ℝ) / S))).sum)

/-- The float value a `CellV` denotes: `np.mean` of the per-orientation
entropies in the `ent` case. -/
noncomputable def CellV.toReal : CellV → ℝ
  | .rat q => (q : ℝ)
  | .ent hs => ((hs.map scipyEntropy).sum) / (hs.length : ℝ)

/-- `sub_image.max()` — numpy's max reduction over the (nonempty in every
use) tile; NaN propagates.  numpy raises on an empty array; the `F.nan`
default is never reached because `glcm_texture` only extracts nonempty
tiles. -/
def tileMax (t : List (List F)) : F :=
  match t.flatten with
  | [] => F.nan
  | v :: rest => rest.foldl F.fmax v

/-- `sub_image /= sub_image.max()/(gray_levels-1)` — the elementwise
in-place rescale of a tile (`L` is `gray_levels`; the subtraction is
carried out on `ℚ` since Python's `gray_levels - 1` is exact integer
arithmetic). -/
def scaleTile (t : List (List F)) (L : ℕ) : List (List F) :=
  let d := F.fdiv (tileMax t) (F.num ((L : ℚ) - 1))
  t.map fun row => row.map fun v => F.fdiv v d

/-- `scaled = (np.round_(sub_image, 0)).astype(int)` applied to the already
rescaled tile. -/
def quant (t : List (List F)) : List (List ℤ) :=
  t.map fun row => row.map fun v => toInt64 (fround v)

/-- The full quantization of one tile: in-place rescale by
`max/(gray_levels-1)` followed by round-half-to-even and the int cast.
This is the entirety of the code's quantization — it contains no clamp. -/
def quantizeTile (t : List (List F)) (L : ℕ) : List (List ℤ) :=
  quant (scaleTile t L)

/-- The width of a quantized tile. -/
def widthZ (x : List (List ℤ)) : ℕ := (x.headD []).length

/-- Entry `(r, c)` of a quantized tile (in-bounds in every use). -/
def getZ (x : List (List ℤ)) (r c : ℕ) : ℤ := (x.getD r []).getD c 0

/-- The four offsets `(round(sin θ), round(cos θ))` that
`skimage.feature.greycomatrix` derives at unit distance from the angle
list `[0, π/4, π/2, 3π/4]` of the call site: right, down-right, down,
down-left. -/
def offsets : List (ℤ × ℤ) := [(0, 1), (1, 1), (1, 0), (1, -1)]

/-- Entry `(i, j)` of the raw (unsymmetrized) co-occurrence count matrix
for offset `(dr, dc)`: the number of pixel positions `(r, c)` whose offset
partner stays inside the tile and whose value pair is `(i, j)`.  This is
`_glcm_loop`'s counting; its guard `0 ≤ v < levels` is implicit here
because entries are only formed for `i, j < L` — out-of-range values
(including the INT64_MIN coming from a NaN cast) match no entry and are
silently dropped, as in the Cython loop. -/
def rawEntry (img : List (List ℤ)) (dr dc : ℤ) (i j : ℕ) : ℕ :=
  ((List.range img.length).map (fun (r : ℕ) =>
    (List.range (widthZ img)).countP (fun (c : ℕ) =>
      decide (0 ≤ (r : ℤ) + dr ∧ (r : ℤ) + dr < img.length ∧
              0 ≤ (c : ℤ) + dc ∧ (c : ℤ) + dc < widthZ img ∧
              getZ img r c = (i : ℤ) ∧
              getZ img ((r : ℤ) + dr).toNat ((c : ℤ) + dc).toNat = (j : ℤ))))).sum

/-- Entry `(i, j)` after `P = P + transpose(P)` (`symmetric=True`). -/
def symEntry (img : List (List ℤ)) (dr dc : ℤ) (i j : ℕ) : ℕ :=
  rawEntry img dr dc i j + rawEntry img dr dc j i

/-- The total count of one symmetrized matrix (`glcm_sums`). -/
def symTotal (img : List (List ℤ)) (L : ℕ) (dr dc : ℤ) : ℕ :=
  ((List.range L).map fun i =>
    ((List.range L).map fun j => symEntry img dr dc i j).sum).sum

/-- One `levels × levels` matrix of `greycomatrix`'s output for one
offset: the symmetrized counts, divided — when `normed=True` — by their
total (`glcm_sums[glcm_sums == 0] = 1` guards the zero-sum case). -/
def glcmMatrix (img : List (List ℤ)) (L : ℕ) (normed : Bool) (o : ℤ × ℤ) :
    List (List ℚ) :=
  let s : ℚ := if symTotal img L o.1 o.2 = 0 then 1 else (symTotal img L o.1 o.2 : ℕ)
  (List.range L).map fun i => (List.range L).map fun j =>
    if normed then (symEntry img o.1 o.2 i j : ℚ) / s
    else (symEntry img o.1 o.2 i j : ℚ)

/-- `greycomatrix(scaled, [1], [0, π/4, π/2, 3π/4], normed=normed,
levels=gray_levels, symmetric=True)`: after validating
`image_max < levels` (else `ValueError`), the list of the four per-angle
matrices (the distance axis has length 1 and is dropped). -/
def greycomatrix (img : List (List ℤ)) (L : ℕ) (normed : Bool) :
    Except TexErr (List (List (List ℚ))) :=
  if ((img.flatten.max?).getD 0) ≥ (L : ℤ) then .error .levelsExceeded
  else .ok (offsets.map (glcmMatrix img L normed))

/-- Entry `(i, j)` of a matrix given as a list of rows. -/
def getQ (m : List (List ℚ)) (i j : ℕ) : ℚ := (m.getD i []).getD j 0

/-- `greycoprops`' renormalization of one matrix (each GLCM is normalized
to sum to 1 before the property weights are applied, with the zero-sum
guard); for the `normed=True` matrices produced above this is the
identity. -/
def propNorm (m : List (List ℚ)) (L : ℕ) : List (List ℚ) :=
  let tot := ((List.range L).map fun i =>
    ((List.range L).map fun j => getQ m i j).sum).sum
  let s : ℚ := if tot = 0 then 1 else tot
  (List.range L).map fun i => (List.range L).map fun j => getQ m i j / s

/-- `greycoprops(glcm, prop='dissimilarity')` for one matrix:
`Σ P[i,j] · |i-j|`. -/
def dissimilarity (m : List (List ℚ)) (L : ℕ) : ℚ :=
  let p := propNorm m L
  ((List.range L).map fun i =>
    ((List.range L).map fun j => getQ p i j * |(i : ℚ) - (j : ℚ)|).sum).sum

/-- `greycoprops(glcm, prop='homogeneity')` for one matrix:
`Σ P[i,j] / (1 + (i-j)²)`. -/
def homogeneity (m : List (List ℚ)) (L : ℕ) : ℚ :=
  let p := propNorm m L
  ((List.range L).map fun i =>
    ((List.range L).map fun j => getQ p i j / (1 + ((i : ℚ) - (j : ℚ)) ^ 2)).sum).sum

/-- `shannon_entropy(glcm_sqz[:, :, k], base=np.e)`'s discrete sufficient
statistic: the counts from `np.unique` over the matrix entries.  The
entropy itself is `scipyEntropy` of this vector (see `CellV.toReal`). -/
def entHist (m : List (List ℚ)) : List ℕ :=
  (npUnique m.flatten).map Prod.snd

/-- The per-tile texture value: the GLCM build followed by the string
dispatch of `glcm_texture` (in the source the `greycomatrix` call precedes
the dispatch, so an unsupported property raises only after the matrix has
been built).  `texture.mean()` (resp. `np.mean(ls_ent)`) averages the four
orientations. -/
def processTile (scaled : List (List ℤ)) (L : ℕ) (normed : Bool) (prop : String) :
    Except TexErr CellV :=
  match greycomatrix scaled L normed with
  | .error e => .error e
  | .ok ms =>
    if prop = "dissimilarity" then
      .ok (.rat ((ms.map fun m => dissimilarity m L).sum / (ms.length : ℚ)))
    else if prop = "homogeneity" then
      .ok (.rat ((ms.map fun m => homogeneity m L).sum / (ms.length : ℚ)))
    else if prop = "entropy" then
      .ok (.ent (ms.map entHist))
    else .error .unsupportedProperty

/-- `range(0, n, step)` for a positive step: `ceil(n/step)` indices. -/
def rowStarts (n step : ℕ) : List ℕ :=
  List.range' 0 ((n + step - 1) / step) step

/-- Writing the rescaled tile back into the image: the effect of
`sub_image /= ...`, which mutates the slice `image[i0:i0+h, j0:j0+w]` of
the caller's array in place (`image = im` — the `.copy()` is commented
out in the source). -/
def writeTile (img : List (List F)) (i0 j0 : ℕ) (t : List (List F)) :
    List (List F) :=
  img.mapIdx fun r row =>
    if i0 ≤ r ∧ r < i0 + t.length then
      let trow := t.getD (r - i0) []
      row.mapIdx fun c v =>
        if j0 ≤ c ∧ c < j0 + trow.length then trow.getD (c - j0) v else v
    else row

/-- The body of the double loop of `glcm_texture`, iterated over the tile
top-left corners in row-major order.  Each step extracts the tile from the
current (possibly already mutated) image, rescales it — mutating the image
in place — quantizes, and computes the tile's texture value; a raise
aborts the iteration, leaving the image in its mutated state. -/
def runTiles (y x L : ℕ) (normed : Bool) (prop : String) :
    List (ℕ × ℕ) → List (List F) → Except TexErr (List CellV) × List (List F)
  | [], img => (.ok [], img)
  | (i, j) :: rest, img =>
    let t := slice2 img i y j x
    let scaledF := scaleTile t L
    let img1 := writeTile img i j scaledF
    match processTile (quant scaledF) L normed prop with
    | .error e => (.error e, img1)
    | .ok c =>
      match runTiles y x L normed prop rest img1 with
      | (.ok cs, imgF) => (.ok (c :: cs), imgF)
      | (.error e, imgF) => (.error e, imgF)

/-- `np.array(out).reshape(r, c)` for a flat list produced with
`r * c` entries. -/
def reshape2 (cells : List CellV) (r c : ℕ) : List (List CellV) :=
  (List.range r).map fun ti => (cells.drop (ti * c)).take c

/-- `glcm_texture(im, window, prop, gray_levels, normed)` from
`src/scripts/utils.py`, with `window = (y, x)`.  The returned pair is
(the function's result — the reshaped output grid, or the raised error —
, the caller's input array after the call), the second component recording
the in-place mutation performed by the quantization.  Loop steps must be
positive (`range` with step 0 raises in Python; all claims assume a valid
window). -/
def glcm_texture (im : List (List F)) (y x : ℕ) (prop : String) (L : ℕ)
    (normed : Bool) : Except TexErr (List (List CellV)) × List (List F) :=
  let istarts := rowStarts im.length y
  let jstarts := rowStarts (width im) x
  let positions := (istarts.map fun i => jstarts.map fun j => (i, j)).flatten
  match runTiles y x L normed prop positions im with
  | (.error e, imgF) => (.error e, imgF)
  | (.ok cells, imgF) => (.ok (reshape2 cells istarts.length jstarts.length), imgF)

/-!
## Helper lemmas
-/

/-- `scipyEntropy` of a two-bucket histogram `[n, 1]` with `n ≥ 1` is
strictly positive: both probability masses lie strictly between 0 and 1,
so both `p·ln p` terms are negative. -/
theorem scipyEntropy_pair_pos (n : ℕ) (hn : 1 ≤ n) : 0 < scipyEntropy [n, 1] := by
  have he : scipyEntropy [n, 1]
      = -((n : ℝ) / ((n : ℝ) + 1) * Real.log ((n : ℝ) / ((n : ℝ) + 1))
          + 1 / ((n : ℝ) + 1) * Real.log (1 / ((n : ℝ) + 1))) := by
    simp [scipyEntropy]
  have hS : (0 : ℝ) < (n : ℝ) + 1 := by positivity
  have hn1 : (1 : ℝ) ≤ (n : ℝ) := by exact_mod_cast hn
  have hp1pos : (0 : ℝ) < (n : ℝ) / ((n : ℝ) + 1) := by positivity
  have hp1lt : (n : ℝ) / ((n : ℝ) + 1) < 1 := by
    rw [div_lt_one hS]; linarith
  have hp2pos : (0 : ℝ) < 1 / ((n : ℝ) + 1) := by positivity
  have hp2lt : (1 : ℝ) / ((n : ℝ) + 1) < 1 := by
    rw [div_lt_one hS]; linarith
  have hl1 : Real.log ((n : ℝ) / ((n : ℝ) + 1)) < 0 := Real.log_neg hp1pos hp1lt
  have hl2 : Real.log (1 / ((n : ℝ) + 1)) < 0 := Real.log_neg hp2pos hp2lt
  have ht1 : (n : ℝ) / ((n : ℝ) + 1) * Real.log ((n : ℝ) / ((n : ℝ) + 1)) < 0 :=
    mul_neg_of_pos_of_neg hp1pos hl1
  have ht2 : (1 : ℝ) / ((n : ℝ) + 1) * Real.log (1 / ((n : ℝ) + 1)) < 0 :=
    mul_neg_of_pos_of_neg hp2pos hl2
  rw [he]
  linarith

/-!
## Claims C1, C2 — degenerate-tile and purity behaviour of the code
-/

/-- C1: the spec demands that a tile with maximum 0 fail explicitly with a
`DEGENERATE_WINDOW` error.  The code has no such guard: on the all-zero
image `[[0.0]]` with window `(1,1)` and `prop='dissimilarity'`,
quantization computes `0.0/0.0 = NaN` (writing NaN into the caller's
array), the NaN is cast to a garbage integer that the co-occurrence loop
silently drops, and the call returns the output grid `[[0.0]]` with no
error of any kind. -/
theorem C1_zero_max_tile_silently_succeeds :
    glcm_texture [[F.num 0]] 1 1 "dissimilarity" 4 true
      = (.ok [[CellV.rat 0]], [[F.nan]]) := by decide

/-- C2: the claim that `glcm_texture` leaves the caller's input array
unchanged is false: on `[[1.0, 2.0]]` with window `(1,2)` and
`gray_levels=4` the call succeeds, but the in-place rescale
`sub_image /= sub_image.max()/(gray_levels-1)` has overwritten the input
with `[[1.5, 3.0]]`. -/
theorem C2_input_array_mutated :
    glcm_texture [[F.num 1, F.num 2]] 1 2 "dissimilarity" 4 true
      = (.ok [[CellV.rat (1/4)]], [[F.num (3/2), F.num 3]])
    ∧ [[F.num (3/2), F.num 3]] ≠ [[F.num 1, F.num 2]] := by decide

/-!
## Claim C3 — entropy of a fully uniform window
-/

/-- C3 counterexample: on the fully uniform window `[[5,5],[5,5]]`
(window `(2,2)`, `gray_levels=4`, `normed=True`, `prop='entropy'`) every
orientation's normalized GLCM is a single cell 1 among 15 zeros, so
`skimage.measure.shannon_entropy` — which computes the entropy of the
histogram of the matrix's entries, not `-Σ p ln p` — returns the entropy
of the counts `[15, 1]`, which is strictly positive; the output cell is
therefore not 0, contradicting the claim. -/
theorem C3_uniform_window_entropy_counterexample :
    (glcm_texture [[F.num 5, F.num 5], [F.num 5, F.num 5]] 2 2 "entropy" 4 true).fst
      = .ok [[CellV.ent [[15, 1], [15, 1], [15, 1], [15, 1]]]]
    ∧ 0 < CellV.toReal (CellV.ent [[15, 1], [15, 1], [15, 1], [15, 1]]) := by
  refine ⟨by decide, ?_⟩
  have h := scipyEntropy_pair_pos 15 (by norm_num)
  simp only [CellV.toReal, List.map_cons, List.map_nil, List.sum_cons,
    List.sum_nil, List.length_cons, List.length_nil]
  norm_num
  linarith

/-!
## Claim C4 — timing of the UNSUPPORTED_PROPERTY error
-/

/-- C4 counterexample: with the unrecognized property name `'bogus'` on the
image `[[1.0]]`, the call does raise the property `ValueError` and returns
no output grid — but only after the first tile's per-tile computation has
run: the in-place quantization has already overwritten the caller's array
(`[[1.0]]` became `[[3.0]]`), so the error is not reported "before any
per-tile computation starts". -/
theorem C4_error_after_tile_computation_counterexample :
    glcm_texture [[F.num 1]] 1 1 "bogus" 4 true
      = (.error .unsupportedProperty, [[F.num 3]])
    ∧ [[F.num 3]] ≠ [[F.num 1]] := by decide

/-!
## Claim C6 — quantization range
-/

/-- C6 counterexample: the quantization contains no clamp, and a tile with
a negative entry escapes `[0, L-1]`: on the tile `[[-1.0, 1.0]]` with
`gray_levels = 4` the code rescales by `max/(L-1) = 1/3` and rounds,
producing quantized levels `[[-3, 3]]` — and `-3` is not in `[0, 3]`. -/
theorem C6_no_clamp_counterexample :
    quantizeTile [[F.num (-1), F.num 1]] 4 = [[-3, 3]]
    ∧ ¬ (0 ≤ (-3 : ℤ)) := by decide

/-!
## `np.unique` / argmax machinery for the Majority Filter claims
-/

/-- Membership in `npUnique`: exactly the pairs (value of the list, its
count). -/
theorem npUnique_mem_iff {α : Type} [LinearOrder α] [DecidableEq α]
    (l : List α) (p : α × ℕ) :
    p ∈ npUnique l ↔ p.1 ∈ l ∧ p.2 = l.count p.1 := by
  constructor
  · intro hp
    rcases List.mem_map.mp hp with ⟨v, hv, rfl⟩
    exact ⟨List.mem_dedup.mp ((List.mem_insertionSort _).mp hv), rfl⟩
  · rintro ⟨h1, h2⟩
    have : p = (p.1, l.count p.1) := by
      cases p; simp_all
    rw [this]
    exact List.mem_map.mpr
      ⟨p.1, (List.mem_insertionSort _).mpr (List.mem_dedup.mpr h1), rfl⟩

/-- The `npUnique` list is ascending in its first components. -/
theorem npUnique_pairwise {α : Type} [LinearOrder α] [DecidableEq α]
    (l : List α) : (npUnique l).Pairwise (fun p q => p.1 ≤ q.1) := by
  unfold npUnique
  rw [List.pairwise_map]
  exact List.Pairwise.imp (fun h => h)
    (List.sorted_insertionSort (fun a b => a ≤ b) (List.dedup l))

/-- Every element of a list of naturals is bounded by the `foldr max 0`. -/
theorem le_foldr_max (l : List ℕ) (a : ℕ) (ha : a ∈ l) : a ≤ l.foldr max 0 := by
  induction l with
  | nil => cases ha
  | cons b t ih =>
    rcases List.mem_cons.mp ha with rfl | ha'
    · exact le_max_left _ _
    · exact le_trans (ih ha') (le_max_right _ _)

/-- The `foldr max 0` of a list of naturals is attained or zero. -/
theorem foldr_max_mem (l : List ℕ) : l.foldr max 0 ∈ l ∨ l.foldr max 0 = 0 := by
  induction l with
  | nil => exact Or.inr rfl
  | cons b t ih =>
    simp only [List.foldr_cons]
    rcases max_choice b (t.foldr max 0) with h | h
    · rw [h]; exact Or.inl (List.mem_cons_self _ _)
    · rw [h]
      rcases ih with h' | h'
      · exact Or.inl (List.mem_cons_of_mem _ h')
      · exact Or.inr h'

/-- `find?` on a list that is ascending in first components returns a pair
whose first component is minimal among all pairs satisfying the
predicate (this is what makes `np.argmax`'s first-maximum rule a
smallest-value tie-break). -/
theorem find?_min_of_pairwise {β : Type} [LinearOrder β]
    (uc : List (β × ℕ)) (pr : β × ℕ → Bool) (p : β × ℕ)
    (hs : uc.Pairwise (fun a b => a.1 ≤ b.1)) (hfind : uc.find? pr = some p) :
    ∀ q ∈ uc, pr q = true → p.1 ≤ q.1 := by
  induction uc with
  | nil => simp at hfind
  | cons h t ih =>
    by_cases hph : pr h = true
    · rw [List.find?_cons_of_pos _ hph] at hfind
      injection hfind with hfe
      subst hfe
      intro q hq _
      rcases List.mem_cons.mp hq with rfl | hq'
      · exact le_refl _
      · exact (List.pairwise_cons.mp hs).1 q hq'
    · rw [List.find?_cons_of_neg _ hph] at hfind
      intro q hq hprq
      rcases List.mem_cons.mp hq with rfl | hq'
      · exact absurd hprq hph
      · exact ih (List.pairwise_cons.mp hs).2 hfind q hq' hprq

/-- The characterization of `unique_elements[np.argmax(counts_elements)]`
on a nonempty list: it is a value of the list, its count is maximal, and
among the values of maximal count it is the least. -/
theorem selectMaj_spec {α : Type} [LinearOrder α] [DecidableEq α] [Inhabited α]
    (l : List α) (hl : l ≠ []) :
    selectMaj (npUnique l) ∈ l
    ∧ (∀ v ∈ l, l.count v ≤ l.count (selectMaj (npUnique l)))
    ∧ (∀ v ∈ l, l.count v = l.count (selectMaj (npUnique l)) →
        selectMaj (npUnique l) ≤ v) := by
  obtain ⟨a, ha⟩ := List.exists_mem_of_ne_nil l hl
  have hle : ∀ v ∈ l, l.count v ≤ ((npUnique l).map Prod.snd).foldr max 0 := by
    intro v hv
    exact le_foldr_max _ _
      (List.mem_map.mpr ⟨(v, l.count v), (npUnique_mem_iff l _).mpr ⟨hv, rfl⟩, rfl⟩)
  have hmmem : ((npUnique l).map Prod.snd).foldr max 0 ∈ (npUnique l).map Prod.snd := by
    rcases foldr_max_mem ((npUnique l).map Prod.snd) with h | h
    · exact h
    · exfalso
      have h1 : 0 < l.count a := List.count_pos_iff.mpr ha
      have h2 := hle a ha
      omega
  obtain ⟨p, hpmem, hp2⟩ := List.mem_map.mp hmmem
  have hfind : (npUnique l).find?
      (fun q => q.2 == ((npUnique l).map Prod.snd).foldr max 0) ≠ none := by
    intro hnone
    have := List.find?_eq_none.mp hnone p hpmem
    simp [hp2] at this
  obtain ⟨p0, hp0⟩ := Option.ne_none_iff_exists'.mp hfind
  have hsel : selectMaj (npUnique l) = p0.1 := by
    simp only [selectMaj]
    rw [hp0]
  have hp0mem := List.mem_of_find?_eq_some hp0
  have hp0eq : p0.2 = ((npUnique l).map Prod.snd).foldr max 0 := by
    have := List.find?_some hp0
    exact eq_of_beq this
  have hp0c := (npUnique_mem_iff l p0).mp hp0mem
  have hcountsel : l.count (selectMaj (npUnique l)) =
      ((npUnique l).map Prod.snd).foldr max 0 := by
    rw [hsel, ← hp0c.2, hp0eq]
  refine ⟨?_, ?_, ?_⟩
  · rw [hsel]; exact hp0c.1
  · intro v hv
    rw [hcountsel]; exact hle v hv
  · intro v hv hc
    rw [hsel]
    refine find?_min_of_pairwise _ _ _ (npUnique_pairwise l) hp0 (v, l.count v)
      ((npUnique_mem_iff l _).mpr ⟨hv, rfl⟩) ?_
    simp only [beq_iff_eq]
    rw [← hcountsel, hc]

/-!
## Claim C7 — majority vote and tie-break
-/

/-- C7: when no center override applies, `block_fn` returns a value of the
window whose occurrence count is maximal, and which is the smallest (in
the numpy sort order, NaN last) among the values attaining that count; in
particular on the window `{2,2,3,3}` (embedded as the 2×2 array
`[[2,2],[3,3]]` with a 3×3 neighborhood) every pixel's output is `2`. -/
theorem C7_majority_vote_tiebreak (xs : List F) (c : F)
    (hnan : c ≠ F.nan) (h1 : c ≠ F.num 1) (hne : xs ≠ []) :
    (block_fn xs c ∈ xs
     ∧ (∀ v ∈ xs, xs.count v ≤ xs.count (block_fn xs c))
     ∧ (∀ v ∈ xs, xs.count v = xs.count (block_fn xs c) → block_fn xs c ≤ v))
    ∧ majority_filter [[F.num 2, F.num 2], [F.num 3, F.num 3]] (3, 3)
        = some [[F.num 2, F.num 2], [F.num 2, F.num 2]] := by
  have hbf : block_fn xs c = selectMaj (npUnique xs) := by
    simp [block_fn, hnan, h1]
  refine ⟨?_, by decide⟩
  rw [hbf]
  exact selectMaj_spec xs hne

/-- Witness for C7 at the window `[2,2,3,3]` with center `3`. -/
theorem C7_majority_vote_tiebreak_witness :
    ((F.num 3 ≠ F.nan) ∧ (F.num 3 ≠ F.num 1)
      ∧ [F.num 2, F.num 2, F.num 3, F.num 3] ≠ ([] : List F))
    ∧ block_fn [F.num 2, F.num 2, F.num 3, F.num 3] (F.num 3)
        ∈ [F.num 2, F.num 2, F.num 3, F.num 3] :=
  ⟨⟨by decide, by decide, by decide⟩,
    (C7_majority_vote_tiebreak [F.num 2, F.num 2, F.num 3, F.num 3] (F.num 3)
      (by decide) (by decide) (by decide)).1.1⟩

/-!
## Filter-level lemmas for C8, C9, C10
-/

/-- `getD` of a mapped range at an in-range index. -/
theorem getD_map_range {β : Type} (n : ℕ) (f : ℕ → β) (i : ℕ) (hi : i < n)
    (d : β) : (((List.range n).map f).getD i d) = f i := by
  rw [List.getD_eq_getElem?_getD, List.getElem?_map, List.getElem?_range hi]
  rfl

/-- With both block dimensions odd the `assert` passes and
`majority_filter` returns the per-pixel map. -/
theorem majority_filter_eq_some (x : List (List F)) (bsy bsx : ℕ)
    (hy : bsy % 2 = 1) (hx : bsx % 2 = 1) :
    majority_filter x (bsy, bsx)
      = some ((List.range x.length).map fun i =>
          (List.range (width x)).map fun j =>
            block_fn ((blockOf x i j ((bsy - 1) / 2) ((bsx - 1) / 2)).flatten)
              (getF x i j)) := by
  simp [majority_filter, hy, hx]

/-- The output pixel `(i,j)` of `majority_filter` is `block_fn` of the
clamped block with the pixel's own value as center. -/
theorem majority_filter_pixel (x : List (List F)) (bsy bsx i j : ℕ)
    (hy : bsy % 2 = 1) (hx : bsx % 2 = 1) (hi : i < x.length)
    (hj : j < width x) (out : List (List F))
    (hout : majority_filter x (bsy, bsx) = some out) :
    getF out i j
      = block_fn ((blockOf x i j ((bsy - 1) / 2) ((bsx - 1) / 2)).flatten)
          (getF x i j) := by
  rw [majority_filter_eq_some x bsy bsx hy hx] at hout
  injection hout with hout
  subst hout
  unfold getF
  rw [getD_map_range _ _ _ hi, getD_map_range _ _ _ hj]

/-- The center pixel's value belongs to its own clamped block. -/
theorem mem_blockOf_center (x : List (List F)) (i j yy xx : ℕ)
    (hrect : ∀ row ∈ x, row.length = width x)
    (hi : i < x.length) (hj : j < width x) :
    getF x i j ∈ (blockOf x i j yy xx).flatten := by
  unfold blockOf slice2
  have hrowlen : (x.getD i []).length = width x := by
    have : x.getD i [] ∈ x := by
      rw [List.getD_eq_getElem?_getD, List.getElem?_eq_getElem hi]
      exact List.getElem_mem hi
    exact hrect _ this
  rw [List.mem_flatten]
  refine ⟨((x.getD i []).drop (j - xx)).take
      (min (width x - 1) (j + xx) + 1 - (j - xx)), ?_, ?_⟩
  · rw [List.mem_map]
    refine ⟨x.getD i [], ?_, rfl⟩
    apply List.getElem?_mem (n := i - (i - yy))
    rw [List.getElem?_take, if_pos (by omega), List.getElem?_drop]
    have : i - yy + (i - (i - yy)) = i := by omega
    rw [this, List.getElem?_eq_getElem hi, List.getD_eq_getElem?_getD,
      List.getElem?_eq_getElem hi]
    rfl
  · apply List.getElem?_mem (n := j - (j - xx))
    rw [List.getElem?_take, if_pos (by omega), List.getElem?_drop]
    have : j - xx + (j - (j - xx)) = j := by omega
    have hj' : j < (x.getD i []).length := by omega
    rw [this, List.getElem?_eq_getElem hj']
    unfold getF
    rw [List.getD_eq_getElem _ _ hj']

/-!
## Claims C8, C9, C10 — center overrides, shape/clamping, value-in-window
-/

/-- C8: the center-value overrides of the Majority Filter, in order: a NaN
(missing-value sentinel) center yields NaN at that pixel regardless of the
neighbors; otherwise a center equal to the special category `1` yields `1`
regardless of the neighbors. -/
theorem C8_center_overrides (x : List (List F)) (bsy bsx i j : ℕ)
    (hy : bsy % 2 = 1) (hx : bsx % 2 = 1) (hi : i < x.length)
    (hj : j < width x) (out : List (List F))
    (hout : majority_filter x (bsy, bsx) = some out) :
    (getF x i j = F.nan → getF out i j = F.nan)
    ∧ (getF x i j = F.num 1 → getF out i j = F.num 1) := by
  have hpix := majority_filter_pixel x bsy bsx i j hy hx hi hj out hout
  constructor
  · intro hc
    rw [hpix, hc]
    simp [block_fn]
  · intro hc
    rw [hpix, hc]
    simp [block_fn]

/-- Witness for C8 on `[[nan, 1],[2, 2]]` with a 3×3 block (the filter
returns the array unchanged: both overrides fire and the votes give 2). -/
theorem C8_center_overrides_witness :
    (getF [[F.nan, F.num 1], [F.num 2, F.num 2]] 0 0 = F.nan →
      getF [[F.nan, F.num 1], [F.num 2, F.num 2]] 0 0 = F.nan) ∧
    (getF [[F.nan, F.num 1], [F.num 2, F.num 2]] 0 0 = F.num 1 →
      getF [[F.nan, F.num 1], [F.num 2, F.num 2]] 0 0 = F.num 1) :=
  C8_center_overrides [[F.nan, F.num 1], [F.num 2, F.num 2]] 3 3 0 0
    (by decide) (by decide) (by decide) (by decide)
    [[F.nan, F.num 1], [F.num 2, F.num 2]] (by decide)

/-- C9: with an odd-by-odd block, the Majority Filter succeeds, the output
grid has exactly the input's shape (same number of rows, and each row the
input's row length), and every pixel's value is `block_fn` of the
border-clamped neighborhood block (the clamping arithmetic of `blockOf`:
rows `max 0 (i-yy) .. min (rows-1) (i+yy)`, shrinking at the borders,
never wrapping or padding). -/
theorem C9_majority_shape_clamped (x : List (List F)) (bsy bsx : ℕ)
    (hy : bsy % 2 = 1) (hx : bsx % 2 = 1)
    (hrect : ∀ row ∈ x, row.length = width x) :
    ∃ out, majority_filter x (bsy, bsx) = some out
      ∧ out.length = x.length
      ∧ (∀ k, k < x.length → (out.getD k []).length = (x.getD k []).length)
      ∧ (∀ i, i < x.length → ∀ j, j < width x →
          getF out i j
            = block_fn ((blockOf x i j ((bsy - 1) / 2) ((bsx - 1) / 2)).flatten)
                (getF x i j)) := by
  refine ⟨_, majority_filter_eq_some x bsy bsx hy hx, ?_, ?_, ?_⟩
  · simp
  · intro k hk
    have hxk : (x.getD k []).length = width x := by
      have : x.getD k [] ∈ x := by
        rw [List.getD_eq_getElem _ _ hk]
        exact List.getElem_mem hk
      exact hrect _ this
    rw [getD_map_range _ _ _ hk, hxk]
    simp
  · intro i hi j hj
    unfold getF
    rw [getD_map_range _ _ _ hi, getD_map_range _ _ _ hj]

/-- Witness for C9 on `[[1, 2], [2, 2]]` with a 3×3 block. -/
theorem C9_majority_shape_clamped_witness :
    ∃ out, majority_filter [[F.num 1, F.num 2], [F.num 2, F.num 2]] (3, 3)
        = some out
      ∧ out.length = 2
      ∧ (∀ k, k < ([[F.num 1, F.num 2], [F.num 2, F.num 2]] : List (List F)).length →
          (out.getD k []).length
            = (([[F.num 1, F.num 2], [F.num 2, F.num 2]] : List (List F)).getD k []).length)
      ∧ (∀ i, i < ([[F.num 1, F.num 2], [F.num 2, F.num 2]] : List (List F)).length →
          ∀ j, j < width [[F.num 1, F.num 2], [F.num 2, F.num 2]] →
          getF out i j
            = block_fn ((blockOf [[F.num 1, F.num 2], [F.num 2, F.num 2]] i j 1 1).flatten)
                (getF [[F.num 1, F.num 2], [F.num 2, F.num 2]] i j)) :=
  C9_majority_shape_clamped [[F.num 1, F.num 2], [F.num 2, F.num 2]] 3 3
    (by decide) (by decide) (by decide)

/-- C10 (implicit invariant): every output pixel of the Majority Filter is
a value occurring somewhere in the clamped neighborhood block centered at
that pixel — the vote returns one of the block's values, and both center
overrides return the center's own value, which lies in its block. -/
theorem C10_output_value_in_window (x : List (List F)) (bsy bsx i j : ℕ)
    (hy : bsy % 2 = 1) (hx : bsx % 2 = 1) (hi : i < x.length)
    (hj : j < width x) (hrect : ∀ row ∈ x, row.length = width x)
    (out : List (List F))
    (hout : majority_filter x (bsy, bsx) = some out) :
    getF out i j ∈ (blockOf x i j ((bsy - 1) / 2) ((bsx - 1) / 2)).flatten := by
  have hpix := majority_filter_pixel x bsy bsx i j hy hx hi hj out hout
  have hcen := mem_blockOf_center x i j ((bsy - 1) / 2) ((bsx - 1) / 2) hrect hi hj
  have hne : (blockOf x i j ((bsy - 1) / 2) ((bsx - 1) / 2)).flatten ≠ [] :=
    List.ne_nil_of_mem hcen
  rw [hpix]
  simp only [block_fn]
  by_cases hnan : getF x i j = F.nan
  · rw [if_pos hnan]
    rw [hnan] at hcen
    exact hcen
  · rw [if_neg hnan]
    by_cases h1 : getF x i j = F.num 1
    · rw [if_pos h1]
      rw [h1] at hcen
      exact hcen
    · rw [if_neg h1]
      exact (selectMaj_spec _ hne).1

/-- Witness for C10 at pixel `(0,1)` of `[[2, 3], [3, 3]]`. -/
theorem C10_output_value_in_window_witness :
    getF [[F.num 3, F.num 3], [F.num 3, F.num 3]] 0 1
      ∈ (blockOf [[F.num 2, F.num 3], [F.num 3, F.num 3]] 0 1 1 1).flatten :=
  C10_output_value_in_window [[F.num 2, F.num 3], [F.num 3, F.num 3]] 3 3 0 1
    (by decide) (by decide) (by decide) (by decide) (by decide)
    [[F.num 3, F.num 3], [F.num 3, F.num 3]] (by decide)

/-!
## Rounding and tile-max lemmas (Texture Engine quantization)
-/

/-- `roundHalfEven` fixes integers. -/
theorem roundHalfEven_intCast (n : ℤ) : roundHalfEven (n : ℚ) = n := by
  unfold roundHalfEven
  rw [Int.floor_intCast]
  norm_num

/-- `roundHalfEven` of a nonnegative rational is nonnegative. -/
theorem roundHalfEven_nonneg (q : ℚ) (h : 0 ≤ q) : 0 ≤ roundHalfEven q := by
  simp only [roundHalfEven]
  have h0 : (0 : ℤ) ≤ ⌊q⌋ := Int.floor_nonneg.mpr h
  split_ifs <;> omega

/-- `roundHalfEven` never exceeds an integer upper bound of its argument. -/
theorem roundHalfEven_le (q : ℚ) (B : ℤ) (h : q ≤ (B : ℚ)) :
    roundHalfEven q ≤ B := by
  simp only [roundHalfEven]
  have hfl : ⌊q⌋ ≤ B := by
    have h2 := Int.floor_le_floor h
    rwa [Int.floor_intCast] at h2
  have hlow : (⌊q⌋ : ℚ) ≤ q := Int.floor_le q
  split_ifs with h1 h2 h3
  · exact hfl
  · have hq : (⌊q⌋ : ℚ) + 1/2 < q := by linarith
    have hltq : (⌊q⌋ : ℚ) < (B : ℚ) := by linarith
    have hfB : ⌊q⌋ < B := by exact_mod_cast hltq
    omega
  · exact hfl
  · have heq : q - ⌊q⌋ = 1/2 := le_antisymm (not_lt.mp h2) (not_lt.mp h1)
    have hltq : (⌊q⌋ : ℚ) < (B : ℚ) := by linarith
    have hfB : ⌊q⌋ < B := by exact_mod_cast hltq
    omega

/-- Truncation toward zero fixes integers. -/
theorem truncQ_intCast (n : ℤ) : truncQ (n : ℚ) = n := by
  unfold truncQ
  split_ifs
  · exact Int.floor_intCast n
  · exact Int.ceil_intCast n

/-- Order on embedded finite values agrees with ℚ. -/
theorem F.num_le_num {a b : ℚ} : (F.num a ≤ F.num b) ↔ a ≤ b := Iff.rfl

/-- The seed of a left max-fold bounds below the fold. -/
theorem le_foldl_max_self {α : Type} [LinearOrder α] :
    ∀ (l : List α) (a : α), a ≤ l.foldl max a
  | [], a => le_refl a
  | b :: t, a => le_trans (le_max_left a b) (le_foldl_max_self t _)

/-- Every member of the list bounds below a left max-fold. -/
theorem le_foldl_max_of_mem {α : Type} [LinearOrder α] :
    ∀ (l : List α) (a v : α), v ∈ l → v ≤ l.foldl max a
  | [], _, v, hv => absurd hv (List.not_mem_nil v)
  | b :: t, a, v, hv => by
    rcases List.mem_cons.mp hv with rfl | hv'
    · exact le_trans (le_max_right a v) (le_foldl_max_self t _)
    · exact le_foldl_max_of_mem t _ v hv'

/-- A left max-fold is its seed or one of the list's members. -/
theorem foldl_max_mem {α : Type} [LinearOrder α] :
    ∀ (l : List α) (a : α), l.foldl max a = a ∨ l.foldl max a ∈ l
  | [], a => Or.inl rfl
  | b :: t, a => by
    simp only [List.foldl_cons]
    rcases foldl_max_mem t (max a b) with h | h
    · rcases max_choice a b with h' | h'
      · exact Or.inl (h.trans h')
      · exact Or.inr (by rw [h, h']; exact List.mem_cons_self _ _)
    · exact Or.inr (List.mem_cons_of_mem _ h)

/-- Every tile value is bounded by `sub_image.max()`. -/
theorem le_tileMax (t : List (List F)) (v : F) (hv : v ∈ t.flatten) :
    v ≤ tileMax t := by
  cases hfl : t.flatten with
  | nil => rw [hfl] at hv; cases hv
  | cons a rest =>
    have heq : tileMax t = rest.foldl F.fmax a := by
      unfold tileMax; rw [hfl]
    rw [heq]
    rw [hfl] at hv
    rcases List.mem_cons.mp hv with rfl | hv'
    · exact le_foldl_max_self rest v
    · exact le_foldl_max_of_mem rest a v hv'

/-- `sub_image.max()` of a nonempty tile is one of the tile's values. -/
theorem tileMax_mem (t : List (List F)) (h : t.flatten ≠ []) :
    tileMax t ∈ t.flatten := by
  cases hfl : t.flatten with
  | nil => exact absurd hfl h
  | cons a rest =>
    have heq : tileMax t = rest.foldl F.fmax a := by
      unfold tileMax; rw [hfl]
    rw [heq]
    rcases foldl_max_mem rest a with h' | h'
    · have h2 : List.foldl F.fmax a rest = a := h'
      rw [h2]; exact List.mem_cons_self _ _
    · exact List.mem_cons_of_mem _ h'

/-- `(L : ℚ) - 1` is positive for `gray_levels ≥ 2`. -/
theorem cast_sub_one_pos (L : ℕ) (hL : 2 ≤ L) : (0 : ℚ) < (L : ℚ) - 1 := by
  have h2 : (2 : ℚ) ≤ (L : ℚ) := by exact_mod_cast hL
  linarith

/-- `getD` through `List.map` at an in-bounds index. -/
theorem getD_map' {β γ : Type} (f : β → γ) (l : List β) (i : ℕ)
    (hi : i < l.length) (d : β) (d' : γ) :
    (l.map f).getD i d' = f (l.getD i d) := by
  rw [List.getD_eq_getElem?_getD, List.getElem?_map, List.getElem?_eq_getElem hi,
    List.getD_eq_getElem _ _ hi]
  rfl

/-- The whole quantization pipeline of one tile, with the divisor
`max/(gray_levels-1)` evaluated (finite since `gray_levels ≥ 2`). -/
theorem quantizeTile_eq (t : List (List F)) (L : ℕ) (m : ℚ) (hL : 2 ≤ L)
    (hmax : tileMax t = F.num m) :
    quantizeTile t L = t.map (fun row => row.map (fun v =>
      toInt64 (fround (F.fdiv v (F.num (m / ((L : ℚ) - 1))))))) := by
  have hne : ((L : ℚ) - 1) ≠ 0 := ne_of_gt (cast_sub_one_pos L hL)
  have hd : F.fdiv (tileMax t) (F.num ((L : ℚ) - 1)) = F.num (m / ((L : ℚ) - 1)) := by
    rw [hmax]
    simp [F.fdiv, hne]
  simp [quantizeTile, quant, scaleTile, hd, List.map_map, Function.comp]

/-- The quantized value of one nonnegative entry `q ≤ m` of a tile with
positive maximum `m`: the rescale-by-`(L-1)/max` and round-half-to-even
formula, together with the `[0, L-1]` bounds. -/
theorem quantVal_spec (q m : ℚ) (L : ℕ) (hL : 2 ≤ L) (hq0 : 0 ≤ q)
    (hqm : q ≤ m) (hm : 0 < m) :
    toInt64 (fround (F.fdiv (F.num q) (F.num (m / ((L : ℚ) - 1)))))
      = roundHalfEven (q * (((L : ℚ) - 1) / m))
    ∧ 0 ≤ roundHalfEven (q * (((L : ℚ) - 1) / m))
    ∧ roundHalfEven (q * (((L : ℚ) - 1) / m)) ≤ (L : ℤ) - 1 := by
  have hL1 : (0 : ℚ) < (L : ℚ) - 1 := cast_sub_one_pos L hL
  have hdpos : 0 < m / ((L : ℚ) - 1) := div_pos hm hL1
  have hdne : m / ((L : ℚ) - 1) ≠ 0 := ne_of_gt hdpos
  have hs : q / (m / ((L : ℚ) - 1)) = q * (((L : ℚ) - 1) / m) := by
    rw [div_div_eq_mul_div, mul_div_assoc]
  have hsnn : 0 ≤ q * (((L : ℚ) - 1) / m) :=
    mul_nonneg hq0 (div_nonneg hL1.le hm.le)
  have hsle : q * (((L : ℚ) - 1) / m) ≤ (L : ℚ) - 1 := by
    have h1 : q * (((L : ℚ) - 1) / m) ≤ m * (((L : ℚ) - 1) / m) :=
      mul_le_mul_of_nonneg_right hqm (div_nonneg hL1.le hm.le)
    have h2 : m * (((L : ℚ) - 1) / m) = (L : ℚ) - 1 := by
      field_simp
    linarith
  refine ⟨?_, roundHalfEven_nonneg _ hsnn, ?_⟩
  · simp only [F.fdiv, if_neg hdne, fround, toInt64, hs]
    exact truncQ_intCast _
  · apply roundHalfEven_le
    push_cast
    linarith

/-- Range of the quantized levels of a nonnegative tile with positive
maximum: all levels lie in `[0, L-1]` (no clamp is needed — or applied). -/
theorem quantizeTile_mem_range (t : List (List F)) (L : ℕ) (m : ℚ)
    (hL : 2 ≤ L)
    (hvals : ∀ row ∈ t, ∀ v ∈ row, ∃ q : ℚ, v = F.num q ∧ 0 ≤ q)
    (hmax : tileMax t = F.num m) (hm : 0 < m) :
    ∀ row ∈ quantizeTile t L, ∀ z ∈ row, 0 ≤ z ∧ z ≤ (L : ℤ) - 1 := by
  intro row hrow z hz
  rw [quantizeTile_eq t L m hL hmax] at hrow
  rcases List.mem_map.mp hrow with ⟨trow, htrow, rfl⟩
  rcases List.mem_map.mp hz with ⟨v, hv, rfl⟩
  rcases hvals trow htrow v hv with ⟨q, rfl, hq0⟩
  have hqm : q ≤ m := by
    have hmem : F.num q ∈ t.flatten := List.mem_flatten.mpr ⟨trow, htrow, hv⟩
    have := le_tileMax t _ hmem
    rw [hmax] at this
    exact F.num_le_num.mp this
  rcases quantVal_spec q m L hL hq0 hqm hm with ⟨heq, h0, h1⟩
  rw [heq]
  exact ⟨h0, h1⟩

/-!
## Claim C6 — amended quantization statement
-/

/-- C6 (amended): for a tile of nonnegative values whose maximum `m` is
positive, quantization computes exactly `roundHalfEven(q · (L-1)/max)`
at every position — a rescale by `(L-1)/max` followed by numpy's single
consistent round-half-to-even rule, with no clamping step — and every
quantized level automatically lies in `[0, L-1]`.  (The clamping the
original claim asserts does not exist; see the counterexample with a
negative entry.) -/
theorem C6_quantization_nonneg_range (t : List (List F)) (L : ℕ) (m : ℚ)
    (hL : 2 ≤ L)
    (hvals : ∀ row ∈ t, ∀ v ∈ row, ∃ q : ℚ, v = F.num q ∧ 0 ≤ q)
    (hmax : tileMax t = F.num m) (hm : 0 < m) :
    (∀ r, r < t.length → ∀ c, c < (t.getD r []).length →
      ∃ q : ℚ, (t.getD r []).getD c (F.num 0) = F.num q
        ∧ getZ (quantizeTile t L) r c = roundHalfEven (q * (((L : ℚ) - 1) / m)))
    ∧ (∀ row ∈ quantizeTile t L, ∀ z ∈ row, 0 ≤ z ∧ z ≤ (L : ℤ) - 1) := by
  refine ⟨?_, quantizeTile_mem_range t L m hL hvals hmax hm⟩
  intro r hr c hc
  have hrowmem : t.getD r [] ∈ t := by
    rw [List.getD_eq_getElem _ _ hr]
    exact List.getElem_mem hr
  have hvmem : (t.getD r []).getD c (F.num 0) ∈ t.getD r [] := by
    rw [List.getD_eq_getElem _ _ hc]
    exact List.getElem_mem hc
  rcases hvals _ hrowmem _ hvmem with ⟨q, hq, hq0⟩
  refine ⟨q, hq, ?_⟩
  have hqm : q ≤ m := by
    have hmem : F.num q ∈ t.flatten := by
      rw [← hq]
      exact List.mem_flatten.mpr ⟨_, hrowmem, hvmem⟩
    have := le_tileMax t _ hmem
    rw [hmax] at this
    exact F.num_le_num.mp this
  unfold getZ
  rw [quantizeTile_eq t L m hL hmax]
  rw [getD_map' _ _ _ hr []]
  have hc2 : c < ((t.getD r []).map (fun v =>
      toInt64 (fround (F.fdiv v (F.num (m / ((L : ℚ) - 1))))))).length := by
    simpa using hc
  rw [getD_map' _ _ _ hc (F.num 0)]
  rw [hq]
  exact (quantVal_spec q m L hL hq0 hqm hm).1

/-- Witness for the amended C6 on the tile `[[1.0, 2.0]]` with
`gray_levels = 4` (maximum 2): the quantized entry at `(0, 1)` lies in
`[0, 3]`. -/
theorem C6_quantization_nonneg_range_witness :
    (0 : ℤ) ≤ getZ (quantizeTile [[F.num 1, F.num 2]] 4) 0 1
      ∧ getZ (quantizeTile [[F.num 1, F.num 2]] 4) 0 1 ≤ (4 : ℤ) - 1 := by
  have h := (C6_quantization_nonneg_range [[F.num 1, F.num 2]] 4 2 (by norm_num)
    (by
      intro row hrow v hv
      simp only [List.mem_singleton] at hrow
      subst hrow
      rcases List.mem_cons.mp hv with rfl | hv'
      · exact ⟨1, rfl, by norm_num⟩
      · rcases List.mem_cons.mp hv' with rfl | hv''
        · exact ⟨2, rfl, by norm_num⟩
        · cases hv'')
    (by decide) (by norm_num)).2
  have hq : quantizeTile [[F.num 1, F.num 2]] 4 = [[2, 3]] := by decide
  have h2 := h [2, 3] (by rw [hq]; exact List.mem_singleton.mpr rfl) 3 (by decide)
  rw [hq]
  have h3 : getZ [[(2 : ℤ), 3]] 0 1 = 3 := rfl
  rw [h3]
  exact ⟨by decide, h2.2⟩

/-!
## Claim C4 — amended: the error fires at the first tile, after its
quantization, and no grid is returned
-/

/-- All quantized levels of a tile of nonnegative values are below
`gray_levels` — either by the `[0, L-1]` range (positive maximum) or
because a zero-maximum tile quantizes to the INT64_MIN garbage cast of
`0/0 = NaN`. -/
theorem quantizeTile_lt (t : List (List F)) (L : ℕ) (hL : 2 ≤ L)
    (hvals : ∀ row ∈ t, ∀ v ∈ row, ∃ q : ℚ, v = F.num q ∧ 0 ≤ q) :
    ∀ row ∈ quantizeTile t L, ∀ z ∈ row, z < (L : ℤ) := by
  intro row hrow z hz
  have hq : quantizeTile t L = t.map (fun r => r.map (fun v =>
      toInt64 (fround (F.fdiv v (F.fdiv (tileMax t) (F.num ((L : ℚ) - 1))))))) := by
    simp [quantizeTile, quant, scaleTile, List.map_map, Function.comp]
  rw [hq] at hrow
  rcases List.mem_map.mp hrow with ⟨trow, htrow, rfl⟩
  rcases List.mem_map.mp hz with ⟨v, hv, rfl⟩
  have hflmem : v ∈ t.flatten := List.mem_flatten.mpr ⟨trow, htrow, hv⟩
  have hfl : t.flatten ≠ [] := List.ne_nil_of_mem hflmem
  have hmaxmem := tileMax_mem t hfl
  rcases List.mem_flatten.mp hmaxmem with ⟨mrow, hmrow, hmmem⟩
  rcases hvals mrow hmrow _ hmmem with ⟨m, hmax, hm0⟩
  rcases hvals trow htrow v hv with ⟨q, rfl, hq0⟩
  have hqm : q ≤ m := by
    have := le_tileMax t _ hflmem
    rw [hmax] at this
    exact F.num_le_num.mp this
  rcases lt_or_eq_of_le hm0 with hm | hm
  · -- positive max: [0, L-1] range
    have hb := quantizeTile_mem_range t L m hL hvals hmax hm
      _ (by rw [hq]; exact List.mem_map.mpr ⟨trow, htrow, rfl⟩)
      _ (List.mem_map.mpr ⟨F.num q, hv, rfl⟩)
    have : toInt64 (fround (F.fdiv (F.num q) (F.fdiv (tileMax t) (F.num ((L : ℚ) - 1)))))
        ≤ (L : ℤ) - 1 := hb.2
    omega
  · -- zero max: the NaN cast INT64_MIN
    have hq0' : q = 0 := le_antisymm (hm ▸ hqm) hq0
    subst hq0'
    rw [hmax, ← hm]
    have hne : ((L : ℚ) - 1) ≠ 0 := ne_of_gt (cast_sub_one_pos L hL)
    have hL0 : (0 : ℤ) ≤ (L : ℤ) := Int.natCast_nonneg L
    simp [F.fdiv, hne, fround, toInt64, int64Min]
    omega

/-- `(l.max?).getD 0` is below a positive bound when all entries are. -/
theorem max?_getD_lt (l : List ℤ) (B : ℤ) (hB : 0 < B)
    (h : ∀ z ∈ l, z < B) : (l.max?.getD 0) < B := by
  cases hm : l.max? with
  | none => simpa using hB
  | some m =>
    have hmem : m ∈ l := List.max?_mem (fun a b => max_choice a b) hm
    simpa using h m hmem

/-- With every quantized level below `levels`, `greycomatrix` does not
raise, and an unrecognized property name falls through all three dispatch
branches to the `ValueError`. -/
theorem processTile_unsupported (scaled : List (List ℤ)) (L : ℕ)
    (normed : Bool) (prop : String)
    (hlt : ((scaled.flatten.max?).getD 0) < (L : ℤ))
    (hp1 : prop ≠ "dissimilarity") (hp2 : prop ≠ "homogeneity")
    (hp3 : prop ≠ "entropy") :
    processTile scaled L normed prop = .error .unsupportedProperty := by
  unfold processTile greycomatrix
  rw [if_neg (not_le.mpr hlt)]
  simp [hp1, hp2, hp3]

/-- Values of a slice are values of the original image. -/
theorem slice2_vals (x : List (List F)) (i0 h j0 w : ℕ) :
    ∀ row ∈ slice2 x i0 h j0 w, ∀ v ∈ row, ∃ row2 ∈ x, v ∈ row2 := by
  intro row hrow v hv
  unfold slice2 at hrow
  rcases List.mem_map.mp hrow with ⟨row2, hrow2, rfl⟩
  exact ⟨row2, List.mem_of_mem_drop (List.mem_of_mem_take hrow2),
    List.mem_of_mem_drop (List.mem_of_mem_take hv)⟩

/-- `range(0, n, step)` starts with 0 when `n > 0`. -/
theorem rowStarts_cons (n step : ℕ) (hn : 0 < n) (hstep : 0 < step) :
    ∃ k, rowStarts n step = 0 :: List.range' step k step := by
  unfold rowStarts
  have h1 : 0 < (n + step - 1) / step :=
    Nat.div_pos (by omega) hstep
  obtain ⟨k, hk⟩ : ∃ k, (n + step - 1) / step = k + 1 := ⟨_, (by omega : (n + step - 1) / step = ((n + step - 1) / step - 1) + 1)⟩
  rw [hk, List.range'_succ]
  exact ⟨k, by norm_num⟩

/-- C4 (amended): an unrecognized property name on a nonempty image of
nonnegative values raises the `UNSUPPORTED_PROPERTY` `ValueError` while
processing the first tile — after that tile has been quantized (and the
caller's array mutated in place; see the counterexample) — and the call
returns no output grid. -/
theorem C4_unsupported_property_no_output (im : List (List F)) (y x L : ℕ)
    (prop : String) (normed : Bool)
    (hrows : 0 < im.length) (hcols : 0 < width im) (hy : 0 < y) (hx : 0 < x)
    (hL : 2 ≤ L)
    (hvals : ∀ row ∈ im, ∀ v ∈ row, ∃ q : ℚ, v = F.num q ∧ 0 ≤ q)
    (hp1 : prop ≠ "dissimilarity") (hp2 : prop ≠ "homogeneity")
    (hp3 : prop ≠ "entropy") :
    (glcm_texture im y x prop L normed).fst = .error .unsupportedProperty := by
  obtain ⟨k1, hk1⟩ := rowStarts_cons im.length y hrows hy
  obtain ⟨k2, hk2⟩ := rowStarts_cons (width im) x hcols hx
  -- the first tile of the iteration and its quantization
  have hvals_t : ∀ row ∈ slice2 im 0 y 0 x, ∀ v ∈ row,
      ∃ q : ℚ, v = F.num q ∧ 0 ≤ q := by
    intro row hrow v hv
    rcases slice2_vals im 0 y 0 x row hrow v hv with ⟨row2, hrow2, hv2⟩
    exact hvals row2 hrow2 v hv2
  have hlt : ∀ row ∈ quantizeTile (slice2 im 0 y 0 x) L, ∀ z ∈ row, z < (L : ℤ) :=
    quantizeTile_lt _ L hL hvals_t
  have hmax : (((quantizeTile (slice2 im 0 y 0 x) L).flatten.max?).getD 0) < (L : ℤ) := by
    apply max?_getD_lt _ _ (by exact_mod_cast hL.trans_lt' (by norm_num))
    intro z hz
    rcases List.mem_flatten.mp hz with ⟨row, hrow, hzin⟩
    exact hlt row hrow z hzin
  have hpt : processTile (quant (scaleTile (slice2 im 0 y 0 x) L)) L normed prop
      = .error .unsupportedProperty :=
    processTile_unsupported _ L normed prop hmax hp1 hp2 hp3
  unfold glcm_texture
  rw [hk1, hk2]
  simp only [List.map_cons, List.flatten_cons, List.cons_append]
  rw [runTiles]
  simp only [hpt]

/-- Witness for the amended C4: property `'bogus'` on `[[1.0]]`. -/
theorem C4_unsupported_property_no_output_witness :
    (glcm_texture [[F.num 1]] 1 1 "bogus" 4 true).fst
      = .error .unsupportedProperty :=
  C4_unsupported_property_no_output [[F.num 1]] 1 1 4 "bogus" true
    (by decide) (by decide) (by decide) (by decide) (by norm_num)
    (by
      intro row hrow v hv
      simp only [List.mem_singleton] at hrow
      subst hrow
      rcases List.mem_cons.mp hv with rfl | hv'
      · exact ⟨1, rfl, by norm_num⟩
      · cases hv')
    (by decide) (by decide) (by decide)

/-!
## Claim C5 — output-grid shape and partial tiles

The texture loop mutates the image as it goes, so relating the produced
cells to tiles of the *original* image needs the observation that the
tiles are pairwise disjoint regions: a write at tile corner `(i, j)`
touches rows `[i, i + y)` and columns `[j, j + x)` only, and every later
corner of the row-major iteration lies at least `y` rows below or (same
row band) at least `x` columns to the right.
-/

/-- Row `r` of `writeTile` when `r` is outside the written row band. -/
theorem writeTile_row_untouched (img : List (List F)) (i j : ℕ)
    (t : List (List F)) (r : ℕ) (hr : i + t.length ≤ r ∨ r < i) :
    (writeTile img i j t)[r]? = img[r]? := by
  unfold writeTile
  rw [List.getElem?_mapIdx]
  cases himg : img[r]? with
  | none => rfl
  | some row =>
    have hcond : ¬(i ≤ r ∧ r < i + t.length) := by omega
    simp [hcond]

/-- Row `r` of `writeTile` inside the written row band: only columns
`[j, j + len(trow))` change. -/
theorem writeTile_row_touched (img : List (List F)) (i j : ℕ)
    (t : List (List F)) (r : ℕ) (hr : i ≤ r ∧ r < i + t.length) :
    (writeTile img i j t)[r]? = (img[r]?).map (fun row =>
      row.mapIdx fun c v =>
        if j ≤ c ∧ c < j + (t.getD (r - i) []).length
        then (t.getD (r - i) []).getD (c - j) v else v) := by
  unfold writeTile
  rw [List.getElem?_mapIdx]
  cases himg : img[r]? with
  | none => rfl
  | some row =>
    simp [hr]

/-- A columnwise partial update does not affect a slice that starts at or
beyond the end of the updated column range. -/
theorem mapIdx_drop_take_untouched (row : List F) (j' w : ℕ)
    (g : ℕ → F → F) (hg : ∀ c v, j' ≤ c → g c v = v) :
    ((row.mapIdx g).drop j').take w = (row.drop j').take w := by
  apply List.ext_getElem?
  intro c
  rw [List.getElem?_take, List.getElem?_take]
  by_cases hc : c < w
  · rw [if_pos hc, if_pos hc, List.getElem?_drop, List.getElem?_drop,
      List.getElem?_mapIdx]
    cases hrow : row[j' + c]? with
    | none => rfl
    | some v => simp [hg (j' + c) v (by omega)]
  · rw [if_neg hc, if_neg hc]

/-- The no-interference lemma: writing a tile of height `≤ y` and row
widths `≤ x` at corner `(i, j)` leaves unchanged any `y × x` slice whose
corner `(i', j')` is at least `y` rows below, or in the same row band and
at least `x` columns to the right. -/
theorem slice2_writeTile_eq (img : List (List F)) (i j i' j' y x : ℕ)
    (t : List (List F)) (hty : t.length ≤ y)
    (htw : ∀ k, (t.getD k []).length ≤ x)
    (hdisj : i + y ≤ i' ∨ (i = i' ∧ j + x ≤ j')) :
    slice2 (writeTile img i j t) i' y j' x = slice2 img i' y j' x := by
  unfold slice2
  apply List.ext_getElem?
  intro r
  rw [List.getElem?_map, List.getElem?_map, List.getElem?_take, List.getElem?_take]
  by_cases hr : r < y
  · rw [if_pos hr, if_pos hr, List.getElem?_drop, List.getElem?_drop]
    rcases hdisj with hd | ⟨rfl, hd⟩
    · rw [writeTile_row_untouched img i j t _ (Or.inl (by omega))]
    · by_cases hin : i + r < i + t.length
      · rw [writeTile_row_touched img i j t _ ⟨by omega, hin⟩]
        rw [Option.map_map]
        cases himg : img[i + r]? with
        | none => rfl
        | some row =>
          have hrow := mapIdx_drop_take_untouched row j' x
            (fun c v => if j ≤ c ∧ c < j + (t.getD (i + r - i) []).length
              then (t.getD (i + r - i) []).getD (c - j) v else v)
            (fun c v hc => if_neg (by
              have := htw (i + r - i)
              omega))
          simpa [Function.comp] using hrow
      · rw [writeTile_row_untouched img i j t _ (Or.inl (by omega))]
  · rw [if_neg hr, if_neg hr]

/-- `range'` with step `step` ascends by at least `step` between entries. -/
theorem range'_pairwise_add (s n step : ℕ) :
    (List.range' s n step).Pairwise (fun a b => a + step ≤ b) := by
  induction n generalizing s with
  | zero => exact List.Pairwise.nil
  | succ n ih =>
    rw [List.range'_succ]
    refine List.pairwise_cons.mpr ⟨?_, ih (s + step)⟩
    intro b hb
    rcases List.mem_range'.mp hb with ⟨k, hk, rfl⟩
    exact Nat.le_add_right _ _

/-- The row-major tile corners of `glcm_texture` are pairwise disjoint in
the sense needed for the no-interference argument. -/
theorem positions_pairwise (n1 n2 y x : ℕ) :
    (((List.range' 0 n1 y).map fun i =>
        (List.range' 0 n2 x).map fun j => (i, j)).flatten).Pairwise
      (fun p q : ℕ × ℕ => p.1 + y ≤ q.1 ∨ (p.1 = q.1 ∧ p.2 + x ≤ q.2)) := by
  rw [List.pairwise_flatten]
  constructor
  · intro l hl
    rcases List.mem_map.mp hl with ⟨i, hi, rfl⟩
    rw [List.pairwise_map]
    exact (range'_pairwise_add 0 n2 x).imp fun hab => Or.inr ⟨rfl, hab⟩
  · rw [List.pairwise_map]
    refine (range'_pairwise_add 0 n1 y).imp ?_
    intro a b hab
    intro p hp q hq
    rcases List.mem_map.mp hp with ⟨j1, hj1, rfl⟩
    rcases List.mem_map.mp hq with ⟨j2, hj2, rfl⟩
    exact Or.inl hab

/-- The number of rows of a slice: `min h` (remaining rows). -/
theorem slice2_length (x : List (List F)) (i0 h j0 w : ℕ) :
    (slice2 x i0 h j0 w).length = min h (x.length - i0) := by
  simp [slice2]

/-- Each row of a slice has at most `w` entries. -/
theorem slice2_row_le (x : List (List F)) (i0 h j0 w : ℕ) :
    ∀ row ∈ slice2 x i0 h j0 w, row.length ≤ w := by
  intro row hrow
  rcases List.mem_map.mp hrow with ⟨row2, hrow2, rfl⟩
  simp

/-- `scaleTile` preserves the tile's shape. -/
theorem scaleTile_length (t : List (List F)) (L : ℕ) :
    (scaleTile t L).length = t.length := by
  simp [scaleTile]

/-- Row bound through `getD` for lists of rows of bounded length. -/
theorem getD_length_le (l : List (List F)) (x : ℕ)
    (hx : ∀ row ∈ l, row.length ≤ x) (k : ℕ) : (l.getD k []).length ≤ x := by
  by_cases hk : k < l.length
  · refine hx _ ?_
    rw [List.getD_eq_getElem _ _ hk]
    exact List.getElem_mem hk
  · rw [List.getD_eq_getElem?_getD, List.getElem?_eq_none (by omega)]
    simp

/-- Rows of a scaled tile have the lengths of the tile's rows. -/
theorem scaleTile_row_le (t : List (List F)) (L : ℕ) (x : ℕ)
    (ht : ∀ row ∈ t, row.length ≤ x) :
    ∀ row ∈ scaleTile t L, row.length ≤ x := by
  intro row hrow
  rcases List.mem_map.mp hrow with ⟨row2, hrow2, rfl⟩
  simpa using ht row2 hrow2

/-- When `runTiles` succeeds on pairwise-disjoint tile corners, starting
from a state that agrees with the original image `im` on every listed
tile, the produced cells are exactly the per-tile values of the
corresponding tiles of `im` (mutation notwithstanding: each write touches
only its own tile region). -/
theorem runTiles_ok (y x L : ℕ) (normed : Bool) (prop : String)
    (im : List (List F)) :
    ∀ (ps : List (ℕ × ℕ)) (img : List (List F)) (cells : List CellV)
      (imgF : List (List F)),
      ps.Pairwise (fun p q => p.1 + y ≤ q.1 ∨ (p.1 = q.1 ∧ p.2 + x ≤ q.2)) →
      (∀ p ∈ ps, slice2 img p.1 y p.2 x = slice2 im p.1 y p.2 x) →
      runTiles y x L normed prop ps img = (.ok cells, imgF) →
      List.Forall₂ (fun (p : ℕ × ℕ) (c : CellV) =>
        processTile (quantizeTile (slice2 im p.1 y p.2 x) L) L normed prop
          = .ok c) ps cells
  | [], img, cells, imgF, _, _, hrun => by
    simp only [runTiles] at hrun
    injection hrun with h1 h2
    injection h1 with h1
    rw [← h1]
    exact List.Forall₂.nil
  | (i, j) :: rest, img, cells, imgF, hdisj, hagree, hrun => by
    simp only [runTiles] at hrun
    have hslice : slice2 img i y j x = slice2 im i y j x :=
      hagree (i, j) (List.mem_cons_self _ _)
    cases hpt : processTile (quant (scaleTile (slice2 img i y j x) L))
        L normed prop with
    | error e =>
      rw [hpt] at hrun
      injection hrun with h1 h2
      exact absurd h1 (by simp)
    | ok c =>
      rw [hpt] at hrun
      cases hrec : runTiles y x L normed prop rest
          (writeTile img i j (scaleTile (slice2 img i y j x) L)) with
      | mk res imgF2 =>
        rw [hrec] at hrun
        cases res with
        | error e =>
          injection hrun with h1 h2
          exact absurd h1 (by simp)
        | ok cs =>
          injection hrun with h1 h2
          injection h1 with h1
          rw [← h1]
          refine List.Forall₂.cons ?_ ?_
          · rw [show quantizeTile (slice2 im i y j x) L
                = quant (scaleTile (slice2 im i y j x) L) from rfl, ← hslice]
            exact hpt
          · refine runTiles_ok y x L normed prop im rest _ cs imgF2
              (List.pairwise_cons.mp hdisj).2 ?_ hrec
            intro p hp
            have hd := (List.pairwise_cons.mp hdisj).1 p hp
            rw [slice2_writeTile_eq img i j p.1 p.2 y x _
              (by rw [scaleTile_length, slice2_length]; omega)
              (getD_length_le _ x
                (scaleTile_row_le _ L x (slice2_row_le img i y j x)))
              hd]
            exact hagree p (List.mem_cons_of_mem _ hp)

/-- Length of the row-major corner list: `n1 * n2`. -/
theorem flatten_map_pairs_length (l1 l2 : List ℕ) :
    ((l1.map fun i => l2.map fun j => (i, j)).flatten).length
      = l1.length * l2.length := by
  rw [List.length_flatten, List.map_map]
  have h : (List.map (List.length ∘ fun i => l2.map fun j => (i, j)) l1)
      = List.replicate l1.length l2.length := by
    rw [show (List.length ∘ fun i => l2.map fun j => ((i, j) : ℕ × ℕ))
        = Function.const ℕ l2.length from funext fun i => by simp]
    exact List.map_const l1 l2.length
  rw [h, List.sum_replicate]
  simp [Nat.smul_one_eq_cast, smul_eq_mul]

/-- Indexing the row-major corner list at `a * n2 + b`. -/
theorem flatten_map_pairs_getElem (l1 l2 : List ℕ) (a b : ℕ)
    (ha : a < l1.length) (hb : b < l2.length) :
    ((l1.map fun i => l2.map fun j => (i, j)).flatten)[a * l2.length + b]?
      = some (l1[a], l2[b]) := by
  induction l1 generalizing a with
  | nil => exact absurd ha (by simp)
  | cons i0 t1 ih =>
    cases a with
    | zero =>
      simp only [List.map_cons, List.flatten_cons, Nat.zero_mul, Nat.zero_add]
      rw [List.getElem?_append, if_pos (by simpa using hb), List.getElem?_map,
        List.getElem?_eq_getElem hb]
      simp
    | succ a2 =>
      simp only [List.map_cons, List.flatten_cons]
      rw [show (a2 + 1) * l2.length + b = l2.length + (a2 * l2.length + b) from by ring]
      rw [List.getElem?_append_right (by simpa using Nat.le_add_right _ _)]
      simp only [List.length_map, Nat.add_sub_cancel_left]
      have := ih a2 (by simpa using Nat.lt_of_succ_lt_succ (by simpa using ha))
      simpa using this

/-- Indexing the reshaped output grid: cell `(ti, tj)` is the flat cell
`ti * c + tj`. -/
theorem reshape2_getD (cells : List CellV) (r c ti tj : ℕ)
    (hti : ti < r) (htj : tj < c) :
    ((reshape2 cells r c).getD ti []).getD tj (CellV.rat 0)
      = cells.getD (ti * c + tj) (CellV.rat 0) := by
  unfold reshape2
  rw [getD_map_range _ _ _ hti]
  rw [List.getD_eq_getElem?_getD, List.getD_eq_getElem?_getD]
  rw [List.getElem?_take, if_pos htj, List.getElem?_drop]

/-- Tile-corner bound: an index below `ceil(n/s)` times the step stays
inside the array, so every tile (partial ones included) is nonempty. -/
theorem mul_lt_of_lt_ceilDiv (n s t : ℕ) (ht : t < (n + s - 1) / s) :
    t * s < n := by
  have hn : 0 < n := by
    by_contra hn0
    have hn0' : n = 0 := by omega
    subst hn0'
    have hz : (0 + s - 1) / s = 0 := by
      cases s with
      | zero => simp
      | succ s2 => exact Nat.div_eq_of_lt (by omega)
    rw [hz] at ht
    exact absurd ht (by omega)
  have h1 : (t + 1) * s ≤ ((n + s - 1) / s) * s := Nat.mul_le_mul_right s ht
  have h2 : ((n + s - 1) / s) * s ≤ n + s - 1 := Nat.div_mul_le_self _ _
  have h3 : (t + 1) * s = t * s + s := by ring
  have h4 := le_trans h1 h2
  rw [h3] at h4
  have h6 : n + s - 1 = (n - 1) + s := by omega
  rw [h6] at h4
  have h7 : t * s ≤ n - 1 := Nat.le_of_add_le_add_right h4
  exact lt_of_le_of_lt h7 (Nat.sub_lt hn Nat.one_pos)

/-- `ti < n1` gives the flat-index bound `ti * n2 + n2 ≤ n1 * n2`. -/
theorem flat_index_bound (ti n1 n2 : ℕ) (h : ti < n1) :
    ti * n2 + n2 ≤ n1 * n2 := by
  have h1 : (ti + 1) * n2 ≤ n1 * n2 := Nat.mul_le_mul_right n2 h
  have h2 : (ti + 1) * n2 = ti * n2 + n2 := by ring
  rw [h2] at h1
  exact h1

/-- C5: whenever `glcm_texture` returns an output grid, the grid has
`ceil(rows/y) × ceil(cols/x)` cells ( `(n+s-1)/s` is `ceil(n/s)` ), and
the `(ti, tj)` cell is the per-tile texture value of precisely the slice
`im[ti*y : ti*y+y, tj*x : tj*x+x]` of the caller's image — whose actual
extent is the remaining rows/columns (`min`), which is positive: partial
border tiles are processed as-is, neither padded nor skipped. -/
theorem C5_texture_grid_shape (im : List (List F)) (y x L : ℕ) (prop : String)
    (normed : Bool)
    (hrect : ∀ row ∈ im, row.length = width im)
    (hrows : 0 < im.length) (hy : 0 < y) (hx : 0 < x)
    (grid : List (List CellV)) (imgF : List (List F))
    (hok : glcm_texture im y x prop L normed = (.ok grid, imgF)) :
    grid.length = (im.length + y - 1) / y
    ∧ (∀ row ∈ grid, row.length = (width im + x - 1) / x)
    ∧ (∀ ti tj, ti < (im.length + y - 1) / y → tj < (width im + x - 1) / x →
        (slice2 im (ti * y) y (tj * x) x).length = min y (im.length - ti * y)
        ∧ (∀ row ∈ slice2 im (ti * y) y (tj * x) x,
            row.length = min x (width im - tj * x))
        ∧ 0 < min y (im.length - ti * y) ∧ 0 < min x (width im - tj * x)
        ∧ processTile (quantizeTile (slice2 im (ti * y) y (tj * x) x) L) L
            normed prop = .ok ((grid.getD ti []).getD tj (CellV.rat 0))) := by
  have hn1 : (rowStarts im.length y).length = (im.length + y - 1) / y := by
    simp [rowStarts]
  have hn2 : (rowStarts (width im) x).length = (width im + x - 1) / x := by
    simp [rowStarts]
  simp only [glcm_texture] at hok
  cases hrt : runTiles y x L normed prop
      (((rowStarts im.length y).map fun i =>
        (rowStarts (width im) x).map fun j => (i, j)).flatten) im with
  | mk res imgF2 =>
    rw [hrt] at hok
    cases res with
    | error e =>
      injection hok with h1 h2
      exact absurd h1 (by simp)
    | ok cells =>
      injection hok with h1 h2
      injection h1 with h1
      have hF := runTiles_ok y x L normed prop im
        (((rowStarts im.length y).map fun i =>
          (rowStarts (width im) x).map fun j => (i, j)).flatten)
        im cells imgF2
        (positions_pairwise _ _ y x) (fun p _ => rfl) hrt
      have hpslen : (((rowStarts im.length y).map fun i =>
          (rowStarts (width im) x).map fun j => (i, j)).flatten).length
          = ((im.length + y - 1) / y) * ((width im + x - 1) / x) := by
        rw [flatten_map_pairs_length, hn1, hn2]
      have hclen : cells.length
          = ((im.length + y - 1) / y) * ((width im + x - 1) / x) := by
        rw [← hF.length_eq, hpslen]
      refine ⟨?_, ?_, ?_⟩
      · rw [← h1]
        simp [reshape2, hn1]
      · intro row hrow
        rw [← h1] at hrow
        unfold reshape2 at hrow
        rcases List.mem_map.mp hrow with ⟨ti, hti, rfl⟩
        rw [List.mem_range] at hti
        rw [hn1] at hti
        rw [List.length_take, List.length_drop, hclen, hn2]
        have hb := flat_index_bound ti _ ((width im + x - 1) / x) hti
        obtain ⟨A, hA⟩ : ∃ A, A = ti * ((width im + x - 1) / x) := ⟨_, rfl⟩
        obtain ⟨B, hB⟩ : ∃ B, B
            = ((im.length + y - 1) / y) * ((width im + x - 1) / x) := ⟨_, rfl⟩
        rw [← hA, ← hB] at hb ⊢
        omega
      · intro ti tj hti htj
        have hrowlt : ti * y < im.length := mul_lt_of_lt_ceilDiv _ _ _ hti
        have hcollt : tj * x < width im := mul_lt_of_lt_ceilDiv _ _ _ htj
        refine ⟨slice2_length im _ y _ x, ?_, by omega, by omega, ?_⟩
        · intro row hrow
          unfold slice2 at hrow
          rcases List.mem_map.mp hrow with ⟨row2, hrow2, rfl⟩
          have : row2.length = width im :=
            hrect row2 (List.mem_of_mem_drop (List.mem_of_mem_take hrow2))
          simp [this]
        · -- the (ti, tj) cell
          have hklt : ti * ((width im + x - 1) / x) + tj
              < ((im.length + y - 1) / y) * ((width im + x - 1) / x) := by
            have hb := flat_index_bound ti _ ((width im + x - 1) / x) hti
            obtain ⟨A, hA⟩ : ∃ A, A = ti * ((width im + x - 1) / x) := ⟨_, rfl⟩
            obtain ⟨B, hB⟩ : ∃ B, B
                = ((im.length + y - 1) / y) * ((width im + x - 1) / x) := ⟨_, rfl⟩
            rw [← hA, ← hB] at hb ⊢
            omega
          have hkps : ti * ((width im + x - 1) / x) + tj
              < (((rowStarts im.length y).map fun i =>
                  (rowStarts (width im) x).map fun j => (i, j)).flatten).length := by
            rw [hpslen]; exact hklt
          have hkc : ti * ((width im + x - 1) / x) + tj < cells.length := by
            rw [hclen]; exact hklt
          -- the corner at flat index k
          have hcorner : (((rowStarts im.length y).map fun i =>
              (rowStarts (width im) x).map fun j => (i, j)).flatten)[
                ti * ((width im + x - 1) / x) + tj]? = some (ti * y, tj * x) := by
            have hgp := flatten_map_pairs_getElem (rowStarts im.length y)
              (rowStarts (width im) x) ti tj (by rw [hn1]; exact hti)
              (by rw [hn2]; exact htj)
            simp only [hn2] at hgp
            rw [hgp]
            have hbi : ti < (rowStarts im.length y).length := by
              rw [hn1]; exact hti
            have hbj : tj < (rowStarts (width im) x).length := by
              rw [hn2]; exact htj
            have e1 : (rowStarts im.length y)[ti] = ti * y := by
              unfold rowStarts
              rw [List.getElem_range']
              ring
            have e2 : (rowStarts (width im) x)[tj] = tj * x := by
              unfold rowStarts
              rw [List.getElem_range']
              ring
            rw [e1, e2]
          obtain ⟨hleq, hget⟩ := List.forall₂_iff_get.mp hF
          have hR := hget (ti * ((width im + x - 1) / x) + tj) hkps
            (by rw [← hleq]; exact hkps)
          rw [List.get_eq_getElem, List.get_eq_getElem] at hR
          have hps : (((rowStarts im.length y).map fun i =>
              (rowStarts (width im) x).map fun j => (i, j)).flatten)[
                ti * ((width im + x - 1) / x) + tj] = (ti * y, tj * x) := by
            have := List.getElem?_eq_getElem hkps
            rw [hcorner] at this
            exact (Option.some.inj this).symm
          rw [hps] at hR
          rw [← h1, reshape2_getD cells _ _ ti tj (by rw [hn1]; exact hti)
            (by rw [hn2]; exact htj)]
          rw [hn2, List.getD_eq_getElem _ _ hkc]
          exact hR

/-- Witness for C5 on a 2×2 image with 1×1 windows. -/
theorem C5_texture_grid_shape_witness :
    ([[CellV.rat 0, CellV.rat 0], [CellV.rat 0, CellV.rat 0]]
      : List (List CellV)).length = (2 + 1 - 1) / 1 :=
  (C5_texture_grid_shape [[F.num 1, F.num 2], [F.num 3, F.num 4]] 1 1 4
    "dissimilarity" true (by decide) (by decide) (by decide) (by decide)
    [[CellV.rat 0, CellV.rat 0], [CellV.rat 0, CellV.rat 0]]
    [[F.num 3, F.num 3], [F.num 3, F.num 3]] (by decide)).1

/-!
## Claim C3 — amended: the entropy of a fully uniform window
-/

/-- A max-fold over copies of the seed is the seed. -/
theorem foldl_max_replicate {α : Type} [LinearOrder α] (a : α) :
    ∀ k, (List.replicate k a).foldl max a = a
  | 0 => rfl
  | k + 1 => by
    rw [List.replicate_succ, List.foldl_cons, max_self]
    exact foldl_max_replicate a k

/-- Flattening a uniform 2-D array of copies. -/
theorem flatten_replicate_replicate {α : Type} (m k : ℕ) (a : α) :
    (List.replicate m (List.replicate k a)).flatten = List.replicate (m * k) a := by
  induction m with
  | zero => simp
  | succ m ih =>
    rw [List.replicate_succ, List.flatten_cons, ih, show (m + 1) * k = k + m * k
      from by ring, List.replicate_add]

/-- `sub_image.max()` of a uniform nonempty tile is its value. -/
theorem tileMax_replicate (h w : ℕ) (a : F) (hh : 0 < h) (hw : 0 < w) :
    tileMax (List.replicate h (List.replicate w a)) = a := by
  unfold tileMax
  rw [flatten_replicate_replicate]
  obtain ⟨k, hk⟩ : ∃ k, h * w = k + 1 :=
    ⟨h * w - 1, by have := Nat.mul_pos hh hw; omega⟩
  rw [hk, List.replicate_succ]
  exact foldl_max_replicate a k

/-- The single full tile of a uniform image is the image itself. -/
theorem slice2_full (h w : ℕ) (a : F) :
    slice2 (List.replicate h (List.replicate w a)) 0 h 0 w
      = List.replicate h (List.replicate w a) := by
  unfold slice2
  rw [List.drop_zero, List.take_of_length_le (by simp), List.map_replicate,
    List.drop_zero, List.take_of_length_le (by simp)]

/-- Quantizing a uniform tile of nonzero value: every entry becomes the
top gray level `L - 1` (the value cancels: `v / (v/(L-1)) = L-1`). -/
theorem quant_scale_uniform (h w L : ℕ) (v : ℚ) (hh : 0 < h) (hw : 0 < w)
    (hL : 2 ≤ L) (hv : v ≠ 0) :
    quant (scaleTile (List.replicate h (List.replicate w (F.num v))) L)
      = List.replicate h (List.replicate w ((L : ℤ) - 1)) := by
  have hL1 : ((L : ℚ) - 1) ≠ 0 := ne_of_gt (cast_sub_one_pos L hL)
  have hvd : v / ((L : ℚ) - 1) ≠ 0 := div_ne_zero hv hL1
  unfold scaleTile quant
  rw [tileMax_replicate h w _ hh hw]
  have hdiv : F.fdiv (F.num v) (F.num ((L : ℚ) - 1))
      = F.num (v / ((L : ℚ) - 1)) := by
    simp [F.fdiv, hL1]
  rw [hdiv, List.map_replicate, List.map_replicate, List.map_replicate,
    List.map_replicate]
  have helem : F.fdiv (F.num v) (F.num (v / ((L : ℚ) - 1)))
      = F.num ((L : ℚ) - 1) := by
    simp only [F.fdiv, if_neg hvd]
    congr 1
    field_simp
  rw [helem]
  have hcast : ((L : ℚ) - 1) = (((L : ℤ) - 1 : ℤ) : ℚ) := by push_cast; ring
  simp only [fround, toInt64, hcast, roundHalfEven_intCast, truncQ_intCast]

/-- Summing `if p b then n else 0` over a list counts the hits. -/
theorem sum_map_ite_count {β : Type} (l : List β) (p : β → Bool) (n : ℕ) :
    (l.map fun b => if p b then n else 0).sum = l.countP p * n := by
  induction l with
  | nil => simp
  | cons a t ih =>
    rw [List.map_cons, List.sum_cons, ih, List.countP_cons]
    by_cases hp : p a
    · simp only [hp, if_true, if_pos]
      rw [show (t.countP p + 1) * n = t.countP p * n + n from by ring]
      omega
    · simp [hp]

/-- The raw co-occurrence counts of a uniform quantized tile, for any of
the four unit offsets: a single positive count at `(L-1, L-1)` and zeros
elsewhere. -/
theorem rawEntry_uniform (h w L : ℕ) (dr dc : ℤ) (hh : 2 ≤ h) (hw : 2 ≤ w)
    (hL : 2 ≤ L) (hdr : 0 ≤ dr ∧ dr ≤ 1) (hdc : -1 ≤ dc ∧ dc ≤ 1) :
    ∃ N, 0 < N ∧ ∀ i j, i < L → j < L →
      rawEntry (List.replicate h (List.replicate w ((L : ℤ) - 1))) dr dc i j
        = if i = L - 1 ∧ j = L - 1 then N else 0 := by
  have hwid : widthZ (List.replicate h (List.replicate w ((L : ℤ) - 1))) = w := by
    obtain ⟨k, rfl⟩ : ∃ k, h = k + 1 := ⟨h - 1, by omega⟩
    simp [widthZ, List.replicate_succ]
  have hget : ∀ r c : ℕ, r < h → c < w →
      getZ (List.replicate h (List.replicate w ((L : ℤ) - 1))) r c
        = (L : ℤ) - 1 := by
    intro r c hr hc
    unfold getZ
    have hrowval : (List.replicate h (List.replicate w ((L : ℤ) - 1))).getD r []
        = List.replicate w ((L : ℤ) - 1) := by
      rw [List.getD_eq_getElem?_getD, List.getElem?_replicate, if_pos hr]
      rfl
    rw [hrowval, List.getD_eq_getElem?_getD, List.getElem?_replicate, if_pos hc]
    rfl
  have hCr : 0 < (List.range h).countP
      (fun (r : ℕ) => decide (0 ≤ (r : ℤ) + dr ∧ (r : ℤ) + dr < (h : ℤ))) := by
    apply List.countP_pos.mpr
    have h0 : (0 : ℕ) ∈ List.range h := List.mem_range.mpr (by omega)
    refine ⟨0, h0, ?_⟩
    simp only [Nat.cast_zero, zero_add, decide_eq_true_eq]
    omega
  have hCc : 0 < (List.range w).countP
      (fun (c : ℕ) => decide (0 ≤ (c : ℤ) + dc ∧ (c : ℤ) + dc < (w : ℤ))) := by
    apply List.countP_pos.mpr
    have h0 : (-dc).toNat ∈ List.range w := List.mem_range.mpr (by omega)
    refine ⟨(-dc).toNat, h0, ?_⟩
    simp only [decide_eq_true_eq]
    omega
  refine ⟨((List.range h).countP fun (r : ℕ) => decide (0 ≤ (r : ℤ) + dr ∧ (r : ℤ) + dr < (h : ℤ)))
      * ((List.range w).countP fun (c : ℕ) => decide (0 ≤ (c : ℤ) + dc ∧ (c : ℤ) + dc < (w : ℤ))),
    Nat.mul_pos hCr hCc, ?_⟩
  intro i j hi hj
  unfold rawEntry
  simp only [List.length_replicate, hwid]
  by_cases hij : i = L - 1 ∧ j = L - 1
  · rw [if_pos hij]
    obtain ⟨rfl, rfl⟩ := hij
    have hinner : ∀ r ∈ List.range h,
        ((List.range w).countP fun (c : ℕ) =>
          decide (0 ≤ (r : ℤ) + dr ∧ (r : ℤ) + dr < (h : ℤ) ∧
            0 ≤ (c : ℤ) + dc ∧ (c : ℤ) + dc < (w : ℤ) ∧
            getZ (List.replicate h (List.replicate w ((L : ℤ) - 1))) r c
              = ((L - 1 : ℕ) : ℤ) ∧
            getZ (List.replicate h (List.replicate w ((L : ℤ) - 1)))
              ((r : ℤ) + dr).toNat ((c : ℤ) + dc).toNat = ((L - 1 : ℕ) : ℤ)))
        = if decide (0 ≤ (r : ℤ) + dr ∧ (r : ℤ) + dr < (h : ℤ))
          then ((List.range w).countP fun (c : ℕ) =>
            decide (0 ≤ (c : ℤ) + dc ∧ (c : ℤ) + dc < (w : ℤ)))
          else 0 := by
      intro r hr
      rw [List.mem_range] at hr
      by_cases hrow : 0 ≤ (r : ℤ) + dr ∧ (r : ℤ) + dr < (h : ℤ)
      · rw [if_pos (by simpa using hrow)]
        apply List.countP_congr
        intro c hc
        rw [List.mem_range] at hc
        simp only [decide_eq_true_eq]
        constructor
        · rintro ⟨-, -, hc1, hc2, -, -⟩
          exact ⟨hc1, hc2⟩
        · rintro ⟨hc1, hc2⟩
          refine ⟨hrow.1, hrow.2, hc1, hc2, ?_, ?_⟩
          · rw [hget r c hr hc]; omega
          · rw [hget _ _ (by omega) (by omega)]; omega
      · rw [if_neg (by simpa using hrow)]
        rw [List.countP_eq_zero]
        intro c hc
        simp only [decide_eq_true_eq]
        rintro ⟨h1, h2, -⟩
        exact hrow ⟨h1, h2⟩
    rw [List.map_congr_left hinner, sum_map_ite_count]
  · rw [if_neg hij]
    apply List.sum_eq_zero
    intro n hn
    rcases List.mem_map.mp hn with ⟨r, hr, rfl⟩
    rw [List.mem_range] at hr
    rw [List.countP_eq_zero]
    intro c hc
    rw [List.mem_range] at hc
    simp only [decide_eq_true_eq]
    rintro ⟨h1, h2, h3, h4, h5, h6⟩
    rw [hget r c hr hc] at h5
    rw [hget _ _ (by omega) (by omega)] at h6
    exact hij ⟨by omega, by omega⟩

/-- Summing an indicator at a single in-range index. -/
theorem sum_map_ite_single (L k : ℕ) (hk : k < L) (n : ℕ) :
    ((List.range L).map fun j => if j = k then n else 0).sum = n := by
  induction L with
  | zero => omega
  | succ M ih =>
    rw [List.range_succ, List.map_append, List.sum_append]
    by_cases hkM : k = M
    · subst hkM
      have h1 : ((List.range k).map fun j => if j = k then n else 0).sum = 0 := by
        apply List.sum_eq_zero
        intro v hv
        rcases List.mem_map.mp hv with ⟨j, hj, rfl⟩
        rw [List.mem_range] at hj
        rw [if_neg (by omega)]
      rw [h1]
      simp
    · have hkM' : k < M := by omega
      rw [ih hkM']
      have hMk : ¬(M = k) := fun hc => hkM hc.symm
      simp [hMk]

/-- The normalized GLCM of a uniform quantized tile is the one-hot matrix
at `(L-1, L-1)`, for each of the four unit offsets. -/
theorem glcmMatrix_uniform (h w L : ℕ) (dr dc : ℤ) (hh : 2 ≤ h) (hw : 2 ≤ w)
    (hL : 2 ≤ L) (hdr : 0 ≤ dr ∧ dr ≤ 1) (hdc : -1 ≤ dc ∧ dc ≤ 1) :
    glcmMatrix (List.replicate h (List.replicate w ((L : ℤ) - 1))) L true (dr, dc)
      = (List.range L).map fun i => (List.range L).map fun j =>
          if i = L - 1 ∧ j = L - 1 then (1 : ℚ) else 0 := by
  obtain ⟨N, hN, hraw⟩ := rawEntry_uniform h w L dr dc hh hw hL hdr hdc
  have hsym : ∀ i j, i < L → j < L →
      symEntry (List.replicate h (List.replicate w ((L : ℤ) - 1))) dr dc i j
        = if i = L - 1 ∧ j = L - 1 then 2 * N else 0 := by
    intro i j hi hj
    unfold symEntry
    rw [hraw i j hi hj, hraw j i hj hi]
    by_cases hij : i = L - 1 ∧ j = L - 1
    · rw [if_pos hij, if_pos ⟨hij.2, hij.1⟩, if_pos hij]
      ring
    · rw [if_neg hij, if_neg (fun hji => hij ⟨hji.2, hji.1⟩), if_neg hij]
  have htot : symTotal (List.replicate h (List.replicate w ((L : ℤ) - 1))) L dr dc
      = 2 * N := by
    unfold symTotal
    have hinner : ∀ i ∈ List.range L,
        ((List.range L).map fun j =>
          symEntry (List.replicate h (List.replicate w ((L : ℤ) - 1))) dr dc i j).sum
        = if i = L - 1 then 2 * N else 0 := by
      intro i hi
      rw [List.mem_range] at hi
      by_cases hiL : i = L - 1
      · subst hiL
        rw [if_pos rfl]
        have := List.map_congr_left (l := List.range L)
          (f := fun j => symEntry (List.replicate h (List.replicate w ((L : ℤ) - 1))) dr dc (L - 1) j)
          (g := fun j => if j = L - 1 then 2 * N else 0)
          (fun j hj => by
            show symEntry (List.replicate h (List.replicate w ((L : ℤ) - 1)))
                dr dc (L - 1) j = if j = L - 1 then 2 * N else 0
            rw [List.mem_range] at hj
            rw [hsym (L - 1) j (by omega) hj]
            by_cases hjL : j = L - 1
            · rw [if_pos ⟨rfl, hjL⟩, if_pos hjL]
            · rw [if_neg (fun hc => hjL hc.2), if_neg hjL])
        rw [this, sum_map_ite_single L (L - 1) (by omega)]
      · rw [if_neg hiL]
        apply List.sum_eq_zero
        intro v hv
        rcases List.mem_map.mp hv with ⟨j, hj, rfl⟩
        rw [List.mem_range] at hj
        rw [hsym i j hi hj, if_neg (fun hc => hiL hc.1)]
    rw [List.map_congr_left hinner, sum_map_ite_single L (L - 1) (by omega)]
  have hNne : ((2 * N : ℕ) : ℚ) ≠ 0 := by
    have : (0 : ℕ) < 2 * N := by omega
    exact_mod_cast Nat.pos_iff_ne_zero.mp this
  unfold glcmMatrix
  rw [htot]
  rw [if_neg (by omega : ¬(2 * N = 0))]
  apply List.map_congr_left
  intro i hi
  rw [List.mem_range] at hi
  apply List.map_congr_left
  intro j hj
  rw [List.mem_range] at hj
  rw [if_pos rfl, hsym i j hi hj]
  by_cases hij : i = L - 1 ∧ j = L - 1
  · rw [if_pos hij, if_pos hij]
    rw [div_self hNne]
  · rw [if_neg hij, if_neg hij]
    simp

/-- Flattening the one-hot matrix: `L²-1` zeros then the single 1 (the
hot cell `(L-1, L-1)` is the last entry in row-major order). -/
theorem onehot_flatten (L : ℕ) (hL : 1 ≤ L) :
    (((List.range L).map fun i => (List.range L).map fun j =>
        if i = L - 1 ∧ j = L - 1 then (1 : ℚ) else 0)).flatten
      = List.replicate (L ^ 2 - 1) 0 ++ [1] := by
  obtain ⟨M, rfl⟩ : ∃ M, L = M + 1 := ⟨L - 1, by omega⟩
  have hrows : ((List.range (M + 1)).map fun i => (List.range (M + 1)).map fun j =>
      if i = M + 1 - 1 ∧ j = M + 1 - 1 then (1 : ℚ) else 0)
      = (List.range (M + 1)).map fun i =>
          if i = M then List.replicate M (0 : ℚ) ++ [1]
          else List.replicate (M + 1) (0 : ℚ) := by
    apply List.map_congr_left
    intro i hi
    rw [List.mem_range] at hi
    by_cases hiM : i = M
    · rw [if_pos hiM, List.range_succ, List.map_append]
      have h1 := List.map_congr_left (l := List.range M)
        (f := fun j => if i = M + 1 - 1 ∧ j = M + 1 - 1 then (1 : ℚ) else 0)
        (g := fun _ => (0 : ℚ))
        (fun j hj => by
          show (if i = M + 1 - 1 ∧ j = M + 1 - 1 then (1 : ℚ) else 0) = 0
          rw [List.mem_range] at hj
          rw [if_neg (by omega)])
      rw [h1, show (fun _ : ℕ => (0 : ℚ)) = Function.const ℕ (0 : ℚ) from rfl,
        List.map_const]
      simp only [List.map_cons, List.map_nil, List.length_range]
      rw [if_pos ⟨by omega, by omega⟩]
    · rw [if_neg hiM]
      have h1 := List.map_congr_left (l := List.range (M + 1))
        (f := fun j => if i = M + 1 - 1 ∧ j = M + 1 - 1 then (1 : ℚ) else 0)
        (g := fun _ => (0 : ℚ))
        (fun j hj => by
          show (if i = M + 1 - 1 ∧ j = M + 1 - 1 then (1 : ℚ) else 0) = 0
          rw [if_neg (by omega)])
      rw [h1, show (fun _ : ℕ => (0 : ℚ)) = Function.const ℕ (0 : ℚ) from rfl,
        List.map_const]
      simp
  rw [hrows, List.range_succ, List.map_append, List.flatten_append]
  have hfirst : (List.range M).map (fun i =>
      if i = M then List.replicate M (0 : ℚ) ++ [1]
      else List.replicate (M + 1) (0 : ℚ))
      = List.replicate M (List.replicate (M + 1) (0 : ℚ)) := by
    have h1 := List.map_congr_left (l := List.range M)
      (f := fun i => if i = M then List.replicate M (0 : ℚ) ++ [1]
        else List.replicate (M + 1) (0 : ℚ))
      (g := fun _ => List.replicate (M + 1) (0 : ℚ))
      (fun i hi => by
        show (if i = M then List.replicate M (0 : ℚ) ++ [1]
          else List.replicate (M + 1) (0 : ℚ)) = List.replicate (M + 1) (0 : ℚ)
        rw [List.mem_range] at hi
        rw [if_neg (by omega)])
    rw [h1, show (fun _ : ℕ => List.replicate (M + 1) (0 : ℚ))
        = Function.const ℕ (List.replicate (M + 1) (0 : ℚ)) from rfl,
      List.map_const]
    simp
  rw [hfirst, flatten_replicate_replicate]
  simp only [List.map_cons, List.map_nil, List.flatten_cons, List.flatten_nil,
    List.append_nil]
  rw [if_pos trivial, ← List.append_assoc, ← List.replicate_add]
  have hcount : M * (M + 1) + M = (M + 1) ^ 2 - 1 := by
    rw [show (M + 1) ^ 2 = M * (M + 1) + M + 1 from by ring]
    simp
  rw [hcount]

/-- `dedup` of `n` zeros followed by a single 1 keeps the last occurrence
of each value: `[0, 1]`. -/
theorem dedup_replicate_append_one (n : ℕ) (hn : 1 ≤ n) :
    (List.replicate n (0 : ℚ) ++ [1]).dedup = [0, 1] := by
  induction n with
  | zero => omega
  | succ m ih =>
    by_cases hm : m = 0
    · subst hm
      rw [show List.replicate 1 (0 : ℚ) ++ [1] = [0, 1] from rfl]
      rw [List.dedup_cons_of_not_mem (by norm_num)]
      rfl
    · rw [List.replicate_succ, List.cons_append,
        List.dedup_cons_of_mem
          (List.mem_append_left _ (List.mem_replicate.mpr ⟨hm, rfl⟩))]
      exact ih (by omega)

/-- `np.unique` with counts of `n` zeros and a single 1. -/
theorem npUnique_zero_append_one (n : ℕ) (hn : 1 ≤ n) :
    npUnique (List.replicate n (0 : ℚ) ++ [1]) = [(0, n), (1, 1)] := by
  unfold npUnique
  rw [dedup_replicate_append_one n hn]
  rw [show List.insertionSort (· ≤ ·) ([0, 1] : List ℚ) = [0, 1] from by decide]
  simp only [List.map_cons, List.map_nil]
  rw [List.count_append, List.count_append, List.count_replicate,
    List.count_replicate]
  norm_num

/-- `shannon_entropy`'s histogram of the one-hot matrix: `L²-1` zeros and
one 1, i.e. the count vector `[L²-1, 1]`. -/
theorem entHist_onehot (L : ℕ) (hL : 2 ≤ L) :
    entHist ((List.range L).map fun i => (List.range L).map fun j =>
        if i = L - 1 ∧ j = L - 1 then (1 : ℚ) else 0)
      = [L ^ 2 - 1, 1] := by
  have h4 : 4 ≤ L ^ 2 := by
    calc (4 : ℕ) = 2 ^ 2 := by norm_num
    _ ≤ L ^ 2 := Nat.pow_le_pow_left hL 2
  unfold entHist
  rw [onehot_flatten L (by omega), npUnique_zero_append_one (L ^ 2 - 1) (by omega)]
  rfl

/-- `greycomatrix` on the uniform quantized tile does not raise (all
levels are `L-1 < L`) and produces the one-hot matrix for each of the
four orientations. -/
theorem greycomatrix_uniform (h w L : ℕ) (hh : 2 ≤ h) (hw : 2 ≤ w)
    (hL : 2 ≤ L) :
    greycomatrix (List.replicate h (List.replicate w ((L : ℤ) - 1))) L true
      = .ok (List.replicate 4 ((List.range L).map fun i =>
          (List.range L).map fun j =>
            if i = L - 1 ∧ j = L - 1 then (1 : ℚ) else 0)) := by
  have h1 := glcmMatrix_uniform h w L 0 1 hh hw hL (by norm_num) (by norm_num)
  have h2 := glcmMatrix_uniform h w L 1 1 hh hw hL (by norm_num) (by norm_num)
  have h3 := glcmMatrix_uniform h w L 1 0 hh hw hL (by norm_num) (by norm_num)
  have h4 := glcmMatrix_uniform h w L 1 (-1) hh hw hL (by norm_num) (by norm_num)
  have hmax : ¬((((List.replicate h (List.replicate w ((L : ℤ) - 1))).flatten.max?).getD 0)
      ≥ (L : ℤ)) := by
    push_neg
    apply max?_getD_lt _ _ (by exact_mod_cast Nat.lt_of_lt_of_le (by norm_num) hL)
    intro z hz
    rw [flatten_replicate_replicate] at hz
    rw [List.eq_of_mem_replicate hz]
    omega
  unfold greycomatrix
  rw [if_neg hmax]
  simp only [offsets, List.map_cons, List.map_nil]
  rw [h1, h2, h3, h4]
  rfl

/-- The per-tile value of the `entropy` property on the uniform quantized
tile: the symbolic mean of the four identical `[L²-1, 1]` histograms. -/
theorem processTile_uniform (h w L : ℕ) (hh : 2 ≤ h) (hw : 2 ≤ w)
    (hL : 2 ≤ L) :
    processTile (List.replicate h (List.replicate w ((L : ℤ) - 1))) L true "entropy"
      = .ok (.ent (List.replicate 4 [L ^ 2 - 1, 1])) := by
  unfold processTile
  rw [greycomatrix_uniform h w L hh hw hL]
  show (if ("entropy" : String) = "dissimilarity" then _
    else if ("entropy" : String) = "homogeneity" then _
    else if ("entropy" : String) = "entropy" then _ else _) = _
  rw [if_neg (by decide), if_neg (by decide), if_pos rfl]
  rw [List.map_replicate, entHist_onehot L hL]

/-- `range(0, n, n)` for `n ≥ 1` is the single index 0: there is exactly
one tile along an axis whose window length equals the axis length. -/
theorem rowStarts_self (n : ℕ) (hn : 1 ≤ n) : rowStarts n n = [0] := by
  unfold rowStarts
  have hdiv : (n + n - 1) / n = 1 := by
    apply Nat.div_eq_of_lt_le <;> omega
  rw [hdiv]
  rfl

/-- `glcm_texture` on a uniform `h × w` image with `window = (h, w)` runs
exactly one tile: the whole computation reduced to a single `processTile`
on the quantized uniform tile, plus the in-place mutation of the input. -/
theorem glcm_texture_single_tile (h w L : ℕ) (v : ℚ) (hh : 2 ≤ h)
    (hw : 2 ≤ w) (hL : 2 ≤ L) (hv : v ≠ 0) :
    glcm_texture (List.replicate h (List.replicate w (F.num v))) h w
        "entropy" L true
      = (.ok [[CellV.ent (List.replicate 4 [L ^ 2 - 1, 1])]],
         writeTile (List.replicate h (List.replicate w (F.num v))) 0 0
           (scaleTile (List.replicate h (List.replicate w (F.num v))) L)) := by
  have hrun : runTiles h w L true "entropy" [(0, 0)]
      (List.replicate h (List.replicate w (F.num v)))
      = (.ok [CellV.ent (List.replicate 4 [L ^ 2 - 1, 1])],
         writeTile (List.replicate h (List.replicate w (F.num v))) 0 0
           (scaleTile (List.replicate h (List.replicate w (F.num v))) L)) := by
    simp only [runTiles]
    rw [slice2_full h w (F.num v),
      quant_scale_uniform h w L v (by omega) (by omega) hL hv,
      processTile_uniform h w L hh hw hL]
  unfold glcm_texture
  rw [List.length_replicate]
  have hwid : width (List.replicate h (List.replicate w (F.num v))) = w := by
    obtain ⟨k, hk⟩ : ∃ k, h = k + 1 := ⟨h - 1, by omega⟩
    rw [hk, List.replicate_succ]
    simp [width]
  rw [hwid, rowStarts_self h (by omega), rowStarts_self w (by omega)]
  simp only [List.map_cons, List.map_nil, List.flatten_cons, List.flatten_nil,
    List.append_nil]
  rw [hrun]
  rfl

/-- **C3 (amended).** For every fully uniform window — `h × w` repetitions
of a single nonzero value `v`, `h, w ≥ 2` — with `gray_levels = L ≥ 2`,
`normed = True` and `prop = "entropy"`, `glcm_texture` succeeds and the
tile's output cell is the mean of the four per-orientation
`shannon_entropy` values, each computed over the histogram `[L²-1, 1]` of
the one-hot normalized GLCM's entries; that value is strictly positive,
not 0 as the original claim states. -/
theorem C3_uniform_window_entropy_value (h w L : ℕ) (v : ℚ)
    (hh : 2 ≤ h) (hw : 2 ≤ w) (hL : 2 ≤ L) (hv : v ≠ 0) :
    (glcm_texture (List.replicate h (List.replicate w (F.num v))) h w
        "entropy" L true).fst
      = .ok [[CellV.ent (List.replicate 4 [L ^ 2 - 1, 1])]]
    ∧ 0 < CellV.toReal (CellV.ent (List.replicate 4 [L ^ 2 - 1, 1])) := by
  constructor
  · rw [glcm_texture_single_tile h w L v hh hw hL hv]
  · have h4 : 4 ≤ L ^ 2 := by
      calc (4 : ℕ) = 2 ^ 2 := by norm_num
      _ ≤ L ^ 2 := Nat.pow_le_pow_left hL 2
    have hpos := scipyEntropy_pair_pos (L ^ 2 - 1) (by omega)
    show 0 < ((List.replicate 4 [L ^ 2 - 1, 1]).map scipyEntropy).sum
        / ((List.replicate 4 [L ^ 2 - 1, 1]).length : ℝ)
    rw [List.map_replicate, List.sum_replicate, List.length_replicate,
      nsmul_eq_mul]
    apply div_pos
    · exact mul_pos (by norm_num) hpos
    · norm_num

/-- A concrete instance of `C3_uniform_window_entropy_value`: the 2×2
uniform image of value 1 with `L = 2`. -/
theorem C3_uniform_window_entropy_value_witness :
    ((2 : ℕ) ≤ 2 ∧ (2 : ℕ) ≤ 2 ∧ (2 : ℕ) ≤ 2 ∧ (1 : ℚ) ≠ 0)
    ∧ ((glcm_texture (List.replicate 2 (List.replicate 2 (F.num 1))) 2 2
          "entropy" 2 true).fst
        = .ok [[CellV.ent (List.replicate 4 [2 ^ 2 - 1, 1])]]
      ∧ 0 < CellV.toReal (CellV.ent (List.replicate 4 [2 ^ 2 - 1, 1]))) :=
  ⟨⟨le_refl 2, le_refl 2, le_refl 2, by norm_num⟩,
   C3_uniform_window_entropy_value 2 2 2 1 (le_refl 2) (le_refl 2) (le_refl 2)
     (by norm_num)⟩
